import Mathlib

/-!
# Polymer NUMA drivers (`numa-SPMV.C`, `numa-BP.C`): embedding and properties

The two driver programs are embedded shallowly.

* C `int` / `intT` values are `Int`; `/` and `%` of C are truncating, hence
  `Int.tdiv` and `Int.tmod`.  The renumbering and the socket sizing keep every
  intermediate value between `0` and the vertex count on the inputs the
  theorems speak about.  Where a value can leave the range of a 32-bit `int`
  (the running sums of degrees, the result of `atoi`) it is reduced to 32 bits
  with `wrapInt32`, as the machine does.
* Vertex ids that index an array are natural numbers; a read outside a list
  yields the default and a write outside a list is dropped, and the theorems
  are stated for inputs on which every access is in range.
* The passes that the `S·C` subworkers perform between two barriers are
  modelled jointly, as one pass over all vertices or edges.
* `double` / `float` cells are rationals (exact arithmetic).
* Arrays are lists; a pointer swap is a swap of two list-valued fields.
* The `while(1)` loop of the subworkers is run with fuel; the result says
  whether the `break` was reached.
-/

/-! ## Vertex renumbering: `SPMV_Hash_F`, `BP_Hash_F` -/

/-- Fields of `struct SPMV_Hash_F`. -/
structure SPMV_Hash_F where
  shardNum : Int
  vertPerShard : Int
  n : Int
  deriving Repr, DecidableEq

namespace SPMV_Hash_F

/-- Constructor `SPMV_Hash_F(int _n, int _shardNum)`:
`n(_n), shardNum(_shardNum), vertPerShard(_n / _shardNum)`. -/
def new (_n _shardNum : Int) : SPMV_Hash_F :=
  { n := _n, shardNum := _shardNum, vertPerShard := Int.tdiv _n _shardNum }

/-- Member `hashFunc` of `SPMV_Hash_F`. -/
def hashFunc (h : SPMV_Hash_F) (index : Int) : Int :=
  if index ≥ h.shardNum * h.vertPerShard then
    index
  else
    let idxOfShard := Int.tmod index h.shardNum
    let idxInShard := Int.tdiv index h.shardNum
    idxOfShard * h.vertPerShard + idxInShard

/-- Member `hashBackFunc` of `SPMV_Hash_F`. -/
def hashBackFunc (h : SPMV_Hash_F) (index : Int) : Int :=
  if index ≥ h.shardNum * h.vertPerShard then
    index
  else
    let idxOfShard := Int.tdiv index h.vertPerShard
    let idxInShard := Int.tmod index h.vertPerShard
    idxOfShard + idxInShard * h.shardNum

end SPMV_Hash_F

/-- Fields of `struct BP_Hash_F`. -/
structure BP_Hash_F where
  shardNum : Int
  vertPerShard : Int
  n : Int
  deriving Repr, DecidableEq

namespace BP_Hash_F

/-- Constructor `BP_Hash_F(int _n, int _shardNum)`:
`n(_n), shardNum(_shardNum), vertPerShard(_n / _shardNum)`. -/
def new (_n _shardNum : Int) : BP_Hash_F :=
  { n := _n, shardNum := _shardNum, vertPerShard := Int.tdiv _n _shardNum }

/-- Member `hashFunc` of `BP_Hash_F`. -/
def hashFunc (h : BP_Hash_F) (index : Int) : Int :=
  if index ≥ h.shardNum * h.vertPerShard then
    index
  else
    let idxOfShard := Int.tmod index h.shardNum
    let idxInShard := Int.tdiv index h.shardNum
    idxOfShard * h.vertPerShard + idxInShard

/-- Member `hashBackFunc` of `BP_Hash_F`. -/
def hashBackFunc (h : BP_Hash_F) (index : Int) : Int :=
  if index ≥ h.shardNum * h.vertPerShard then
    index
  else
    let idxOfShard := Int.tdiv index h.vertPerShard
    let idxInShard := Int.tmod index h.vertPerShard
    idxOfShard + idxInShard * h.shardNum

end BP_Hash_F

/-! ## Machine integers -/

/-- The value a 32-bit two's complement `int` / `intT` holds after an
arithmetic result or a conversion `x`: `x` reduced modulo `2^32` into
`[-2^31, 2^31)`. -/
def wrapInt32 (x : Int) : Int :=
  (x + 2147483648) % 4294967296 - 2147483648

/-- The value `strtol` returns for the exact value `x` on a machine with 64-bit
`long`: `x` clamped to `[LONG_MIN, LONG_MAX]`. -/
def clampLong (x : Int) : Int :=
  if x < -9223372036854775808 then -9223372036854775808
  else if x > 9223372036854775807 then 9223372036854775807
  else x

/-! ## Loops -/

/-- Counted loop `for (i = start; i < start + count; i++) body(i)` acting on a
state: `forLoop body count start s`. -/
def forLoop {σ : Type} (body : Nat → σ → σ) : Nat → Nat → σ → σ
  | 0, _, s => s
  | count + 1, i, s => forLoop body count (i + 1) (body i s)

/-- Outcome of running the subworkers' `while(1)` loop with some fuel.
`exited` tells whether the `break` was reached; `currIter` and `state` are the
values at that point (or when the fuel ran out).  `entered` is a ghost log: the
value of `currIter` and the state each time the guard let control into the
body. -/
structure LoopRun (σ : Type) where
  exited : Bool
  currIter : Int
  state : σ
  entered : List (Int × σ)

/-- The iteration loop shared by `SPMVSubWorker` and `BeliefPropagationSubWorker`:
```
while(1) {
    if (maxIter > 0 && currIter >= maxIter) break;
    currIter++;
    body
}
```
`body` receives the value of `currIter` after the increment. -/
def subworkerLoop {σ : Type} (maxIter : Int) (body : Int → σ → σ) :
    Nat → Int → σ → List (Int × σ) → LoopRun σ
  | 0, currIter, st, log => { exited := false, currIter := currIter, state := st, entered := log }
  | fuel + 1, currIter, st, log =>
    if maxIter > 0 ∧ currIter ≥ maxIter then
      { exited := true, currIter := currIter, state := st, entered := log }
    else
      subworkerLoop maxIter body fuel (currIter + 1) (body (currIter + 1) st)
        (log ++ [(currIter, st)])

/-! ## SPMV kernel and subworker -/

/-- One out-edge as the traversal hands it to the kernel: source `s`,
destination `d`, integer weight `edgeLen`. -/
structure WghEdge where
  s : Nat
  d : Nat
  edgeLen : Int
  deriving Repr, DecidableEq

/-- The two arenas `struct SPMV_F` points to (`V`, `rangeLow`, `rangeHi` are not
read by the members below). -/
structure SPMV_F where
  p_curr : List ℚ
  p_next : List ℚ

/-- Modelled from the spec: `writeAdd` is declared in a header that is not part
of the sources; the spec describes it as a CAS loop that reads the current
value, computes the new value and swaps until success.  This is its effect on
the cell when the compare-and-swap is not interfered with. -/
def writeAdd (a b : ℚ) : ℚ := a + b

namespace SPMV_F

/-- Member `update`: `p_next[d] += p_curr[s] * edgeLen; return 1;`. -/
def update (f : SPMV_F) (s d : Nat) (edgeLen : Int) : Bool × SPMV_F :=
  (true, { f with p_next := f.p_next.set d (f.p_next.getD d 0 + f.p_curr.getD s 0 * edgeLen) })

/-- Member `updateAtomic`: `writeAdd(&p_next[d], p_curr[s] * edgeLen); return 1;`. -/
def updateAtomic (f : SPMV_F) (s d : Nat) (edgeLen : Int) : Bool × SPMV_F :=
  (true, { f with p_next := f.p_next.set d (writeAdd (f.p_next.getD d 0) (f.p_curr.getD s 0 * edgeLen)) })

/-- Member `cond`: `return true;`. -/
def cond (_f : SPMV_F) (_d : Nat) : Bool := true

end SPMV_F

/-- Call operator of `SPMV_Vertex_Reset`: `p_curr[i] = 0.0; return 1;`. -/
def SPMV_Vertex_Reset (p_curr : List ℚ) (i : Nat) : Bool × List ℚ :=
  (true, p_curr.set i 0)

/-- Modelled from the spec: `edgeMapDenseForward` lives in a header that is not
part of the sources.  Push-forward mode: for each source active in the input
frontier, for each of its out-edges `(s, d, edgeW)` call
`kernel.updateAtomic(s, d, edgeW)`; if the kernel returns "activated", set the
output frontier bit for `d`.  This is the visit of one out-edge. -/
def edgeMapDenseForward_visit (frontier : List Bool) (acc : SPMV_F × List Bool)
    (e : WghEdge) : SPMV_F × List Bool :=
  if frontier.getD e.s false then
    let r := acc.1.updateAtomic e.s e.d e.edgeLen
    if r.1 then (r.2, acc.2.set e.d true) else (r.2, acc.2)
  else acc

/-- Modelled from the spec: the push-forward pass of all subworkers between two
barriers, as one sequence of kernel calls.  `visits` lists the out-edges in the
order in which their atomic updates take effect. -/
def edgeMapDenseForward (visits : List WghEdge) (frontier : List Bool) (f : SPMV_F)
    (output : List Bool) : SPMV_F × List Bool :=
  visits.foldl (edgeMapDenseForward_visit frontier) (f, output)

/-- Modelled from the spec: `vertexMap` lives in a header that is not part of
the sources; it is the per-vertex side-effect pass.  Jointly over all
subworkers it applies the functor to every vertex of `[0, n)` whose bit is set
in the frontier it is given. -/
def vertexMap {α : Type} (frontier : List Bool) (f : α → Nat → Bool × α) (n : Nat) (a : α) : α :=
  forLoop (fun i a => if frontier.getD i false then (f a i).2 else a) n 0 a

/-- Cells shared by the SPMV subworkers: the arenas behind the local pointers
`p_curr`, `p_next`, and the bits of the output frontier. -/
structure SPMV_State where
  p_curr : List ℚ
  p_next : List ℚ
  output : List Bool

/-- Body of the loop of `SPMVSubWorker` after `currIter++`: clear the output
bits, `edgeMapDenseForward` with `SPMV_F(p_curr, p_next, …)`, `vertexMap` with
`SPMV_Vertex_Reset(p_curr)` over the frontier `All`, `swap(p_curr, p_next)`. -/
def SPMVSubWorker_iteration (All : List Bool) (n : Nat) (visits : List WghEdge)
    (st : SPMV_State) : SPMV_State :=
  let output := forLoop (fun i o => o.set i false) n 0 st.output
  let r := edgeMapDenseForward visits All { p_curr := st.p_curr, p_next := st.p_next } output
  let p_curr := vertexMap All SPMV_Vertex_Reset n r.1.p_curr
  let p_next := r.1.p_next
  { p_curr := p_next, p_next := p_curr, output := r.2 }

/-- The loop of `SPMVSubWorker` from `int currIter = 0`.  `sched c` is the order
in which the out-edges are visited in the iteration that has `currIter = c`. -/
def SPMVSubWorker (All : List Bool) (n : Nat) (sched : Int → List WghEdge) (maxIter : Int)
    (fuel : Nat) (st : SPMV_State) : LoopRun SPMV_State :=
  subworkerLoop maxIter (fun c s => SPMVSubWorker_iteration All n (sched c) s) fuel 0 st []

/-- After the loop: `if (subworker.isMaster()) p_ans = p_curr;`. -/
def p_ans (run : LoopRun SPMV_State) : Option (List ℚ) :=
  if run.exited then some run.state.p_curr else none

/-- Initialisation in `SPMVThread`:
`for (i = rangeLow; i < rangeHi; i++) p_curr[i] = one_over_n;`
`for (i = rangeLow; i < rangeHi; i++) p_next[i] = 0;` with
`one_over_n = 1/(double)n`. -/
def SPMVThread_init (n : Int) (rangeLow rangeHi : Nat) (p : List ℚ × List ℚ) : List ℚ × List ℚ :=
  let one_over_n : ℚ := 1 / (n : ℚ)
  let p_curr := forLoop (fun i a => a.set i one_over_n) (rangeHi - rangeLow) rangeLow p.1
  let p_next := forLoop (fun i a => a.set i 0) (rangeHi - rangeLow) rangeLow p.2
  (p_curr, p_next)

/-- The worker-creation loop of `SPMV_main`, restricted to what the workers do
to the arenas before the subworkers start: `prev = 0`, and for each socket `i`
`rangeLow = prev`, `rangeHi = prev + sizeArr[i]`, `prev = prev + sizeArr[i]`. -/
def SPMV_main_init (n : Int) (sizeArr : List Nat) (p : List ℚ × List ℚ) : List ℚ × List ℚ :=
  (forLoop (fun i (acc : Nat × (List ℚ × List ℚ)) =>
      (acc.1 + sizeArr.getD i 0, SPMVThread_init n acc.1 (acc.1 + sizeArr.getD i 0) acc.2))
    sizeArr.length 0 (0, p)).2

/-- Reference semantics of one SPMV step: entry `d` of the product is the sum of
`p[s] * w` over the edges `(s, d, w)`. -/
def matVec (n : Nat) (edges : List WghEdge) (p : List ℚ) : List ℚ :=
  (List.range n).map (fun d =>
    ((edges.filter (fun e => e.d = d)).map (fun e => p.getD e.s 0 * (e.edgeLen : ℚ))).sum)

/-- The identity matrix as a graph: one edge `i → i` of weight `1` for every
vertex `i < n`. -/
def identityEdges (n : Nat) : List WghEdge :=
  (List.range n).map (fun i => { s := i, d := i, edgeLen := 1 })

/-! ## Belief propagation: data, reset functor, subworker -/

/-- Macro `NSTATES`, defined as `2`. -/
def NSTATES : Nat := 2

/-- Record `struct VertexData`, one array `float product[NSTATES]`. -/
structure VertexData where
  product : List ℚ
  deriving Repr, DecidableEq

/-- Record `struct EdgeData`, one array `float belief[NSTATES]`. -/
structure EdgeData where
  belief : List ℚ
  deriving Repr, DecidableEq

/-- Call operator of `BP_Vertex_Reset`, `operator()(intT i)`:
```
for (int i = 0; i < NSTATES; i++) {
    vertD[i].product[i] = 1.0;
}
return 1;
```
The loop variable shadows the parameter, so the parameter is never read.  A
write outside the list leaves it unchanged. -/
def BP_Vertex_Reset (vertD : List VertexData) (_i : Nat) : Bool × List VertexData :=
  (true, forLoop (fun i vd =>
      match vd[i]? with
      | some v => vd.set i { product := v.product.set i 1 }
      | none => vd) NSTATES 0 vertD)

/-- Cells shared by the BP subworkers. -/
structure BP_State where
  vertD_curr : List VertexData
  vertD_next : List VertexData
  edgeD_curr : List EdgeData
  edgeD_next : List EdgeData
  output_m : Int

/-- Body of the loop of `BeliefPropagationSubWorker` after `currIter++`:
`vertexMap` with `BP_Vertex_Reset(vertD_next)`, `output->m = 1`, the pull pass
`edgeMapDenseBP` (a header function that is not part of the sources, taken as
a parameter), `swap(edgeD_curr, edgeD_next)`, `swap(vertD_curr, vertD_next)`.
The recount `Frontier->calculateNumOfNonZero(tid)` touches none of these cells
and is left out. -/
def BeliefPropagationSubWorker_iteration (Frontier : List Bool) (n : Nat)
    (edgeMapDenseBP : BP_State → BP_State) (st : BP_State) : BP_State :=
  let st1 := { st with vertD_next := vertexMap Frontier BP_Vertex_Reset n st.vertD_next, output_m := 1 }
  let st2 := edgeMapDenseBP st1
  { st2 with edgeD_curr := st2.edgeD_next, edgeD_next := st2.edgeD_curr,
             vertD_curr := st2.vertD_next, vertD_next := st2.vertD_curr }

/-- The loop of `BeliefPropagationSubWorker` from `int currIter = 0`. -/
def BeliefPropagationSubWorker (Frontier : List Bool) (n : Nat)
    (edgeMapDenseBP : BP_State → BP_State) (maxIter : Int) (fuel : Nat) (st : BP_State) :
    LoopRun BP_State :=
  subworkerLoop maxIter
    (fun _ s => BeliefPropagationSubWorker_iteration Frontier n edgeMapDenseBP s) fuel 0 st []

/-! ## Belief propagation: socket sizing and offsets -/

/-- The value of `sizeof(double)`. -/
def sizeof_double : Int := 8

/-- Local `vertPerPage` of `BeliefPropagation`:
`intT vertPerPage = PAGESIZE / sizeof(double);`.  `PAGESIZE` is a macro of a
header that is not part of the sources and is a parameter. -/
def BeliefPropagation_vertPerPage (PAGESIZE : Int) : Int :=
  Int.tdiv PAGESIZE sizeof_double

/-- Local `subShardSize` of `BeliefPropagation`:
`intT subShardSize = ((GA.n / numOfNode) / vertPerPage) * vertPerPage;`. -/
def BeliefPropagation_subShardSize (PAGESIZE n numOfNode : Int) : Int :=
  Int.tdiv (Int.tdiv n numOfNode) (BeliefPropagation_vertPerPage PAGESIZE) *
    BeliefPropagation_vertPerPage PAGESIZE

/-- Socket sizing in `BeliefPropagation`:
```
for (int i = 0; i < numOfNode - 1; i++) sizeArr[i] = subShardSize;
sizeArr[numOfNode - 1] = GA.n - subShardSize * (numOfNode - 1);
```
The argument `sizeArr` is the content of the array before the writes. -/
def BeliefPropagation_sizeArr (PAGESIZE n numOfNode : Int) (sizeArr : List Int) : List Int :=
  let subShardSize := BeliefPropagation_subShardSize PAGESIZE n numOfNode
  let sizeArr := forLoop (fun i a => a.set i subShardSize) (numOfNode - 1).toNat 0 sizeArr
  sizeArr.set (numOfNode - 1).toNat (n - subShardSize * (numOfNode - 1))

/-- The fields of `struct BP_worker_arg` that the creation loop computes. -/
structure BP_worker_arg where
  maxIter : Int
  tid : Int
  numOfNode : Int
  rangeLow : Int
  rangeHi : Int
  deriving Repr, DecidableEq

/-- Worker-creation loop of `BeliefPropagation`:
```
int prev = 0;
for (int i = 0; i < numOfNode; i++) {
    arg->maxIter = maxIter; arg->tid = i; arg->numOfNode = numOfNode;
    arg->rangeLow = prev;
    arg->rangeHi = prev + sizeArr[i];
    prev = prev + sizeArr[i];
}
```
returning the arguments in creation order. -/
def BeliefPropagation_workerArgs (maxIter numOfNode : Int) (sizeArr : List Int) :
    List BP_worker_arg :=
  (forLoop (fun i (acc : Int × List BP_worker_arg) =>
      (acc.1 + sizeArr.getD i 0,
       acc.2 ++ [{ maxIter := maxIter, tid := i, numOfNode := numOfNode,
                   rangeLow := acc.1, rangeHi := acc.1 + sizeArr.getD i 0 }]))
    numOfNode.toNat 0 (0, [])).2

/-- Offsets in `BeliefPropagationThread`:
```
localOffsets[0] = 0;
for (intT i = 1; i < localGraph.n; i++)
    localOffsets[i] = localOffsets[i-1] + fakeDegrees[i-1];
```
`localOffsets` is the content of the freshly allocated array.  The type
`intT` is a 32-bit `int`, so each sum is reduced to 32 bits. -/
def BeliefPropagationThread_localOffsets (n : Nat) (fakeDegrees : List Int)
    (localOffsets : List Int) : List Int :=
  forLoop (fun i a => a.set i (wrapInt32 (a.getD (i - 1) 0 + fakeDegrees.getD (i - 1) 0)))
    (n - 1) 1 (localOffsets.set 0 0)

/-! ## Command line -/

/-- C `isspace` in the "C" locale. -/
def isspace (c : Char) : Bool :=
  c.toNat = 32 || (9 ≤ c.toNat && c.toNat ≤ 13)

/-- Digit run of `atoi`: consume decimal digits, stop at the first other
character. -/
def atoi_digits : List Char → Int → Int
  | [], acc => acc
  | c :: cs, acc =>
    if c.isDigit then atoi_digits cs (acc * 10 + ((c.toNat : Int) - 48)) else acc

/-- The integer written at the start of a string, as `strtol(s, NULL, 10)`
reads it before any range limit: skip white space, read an optional sign, then
the longest run of decimal digits; `0` when there is none. -/
def decimalValue (s : String) : Int :=
  match s.toList.dropWhile isspace with
  | '-' :: cs => - atoi_digits cs 0
  | '+' :: cs => atoi_digits cs 0
  | cs => atoi_digits cs 0

/-- C library `atoi`, which is `(int) strtol(s, NULL, 10)`: the value written
in the string, clamped to the range of `long` by `strtol` and then converted
to a 32-bit `int`. -/
def atoi (s : String) : Int :=
  wrapInt32 (clampLong (decimalValue s))

/-- The locals of `parallel_main` once the arguments have been read. -/
structure MainArgs where
  iFile : Option String
  maxIter : Int
  needResult : Bool
  symmetric : Bool
  binary : Bool
  deriving Repr, DecidableEq

namespace SPMV

/-- Argument reading of `parallel_main` in `numa-SPMV.C`:
```
bool binary = false; bool symmetric = false; int maxIter = -1; needResult = false;
if(argc > 1) iFile = argv[1];
if(argc > 2) maxIter = atoi(argv[2]);
if(argc > 3) if((string) argv[3] == (string) "-result") needResult = true;
if(argc > 4) if((string) argv[4] == (string) "-s") symmetric = true;
if(argc > 5) if((string) argv[5] == (string) "-b") binary = true;
```
-/
def parallel_main (argv : List String) : MainArgs :=
  let argc := argv.length
  { iFile := if argc > 1 then argv[1]? else none
    maxIter := if argc > 2 then atoi (argv.getD 2 "") else -1
    needResult := if argc > 3 then (if argv.getD 3 "" = "-result" then true else false) else false
    symmetric := if argc > 4 then (if argv.getD 4 "" = "-s" then true else false) else false
    binary := if argc > 5 then (if argv.getD 5 "" = "-b" then true else false) else false }

end SPMV

namespace BP

/-- Argument reading of `parallel_main` in `numa-BP.C` (same statements as in
`numa-SPMV.C`). -/
def parallel_main (argv : List String) : MainArgs :=
  let argc := argv.length
  { iFile := if argc > 1 then argv[1]? else none
    maxIter := if argc > 2 then atoi (argv.getD 2 "") else -1
    needResult := if argc > 3 then (if argv.getD 3 "" = "-result" then true else false) else false
    symmetric := if argc > 4 then (if argv.getD 4 "" = "-s" then true else false) else false
    binary := if argc > 5 then (if argv.getD 5 "" = "-b" then true else false) else false }

end BP

/-- An argument vector `program input-file [maxIter] [-result] [-s] [-b]`: each
optional argument present or absent on its own, in this order.  The integer is
written in decimal. -/
def cliArgv (program inputFile : String) (maxIter : Option Int) (result s b : Bool) :
    List String :=
  [program, inputFile] ++ (maxIter.map toString).toList ++
    (if result then ["-result"] else []) ++ (if s then ["-s"] else []) ++
    (if b then ["-b"] else [])

/-! ## Belief propagation: edge arenas and kernel -/

/-- Length of the edge arenas in `BeliefPropagationThread`:
`intT numLocalEdge = localOffsets[localGraph.n - 1];`, the length with which
`edgeW`, `edgeD_curr` and `edgeD_next` are allocated. -/
def BeliefPropagationThread_numLocalEdge (n : Nat) (fakeDegrees : List Int)
    (localOffsets : List Int) : Int :=
  (BeliefPropagationThread_localOffsets n fakeDegrees localOffsets).getD (n - 1) 0

/-- Record `struct EdgeWeight`, one array `float potential[NSTATES][NSTATES]`. -/
structure EdgeWeight where
  potential : List (List ℚ)
  deriving Repr, DecidableEq

/-- Record `struct VertexInfo`, one array `float potential[NSTATES]`. -/
structure VertexInfo where
  potential : List ℚ
  deriving Repr, DecidableEq

/-- Read of `edgeD[idx].belief[i]`. -/
def readBelief (edgeD : List EdgeData) (idx i : Nat) : ℚ :=
  match edgeD[idx]? with
  | some e => e.belief.getD i 0
  | none => 0

/-- Write `edgeD[idx].belief[i] = v`. -/
def writeBelief (edgeD : List EdgeData) (idx i : Nat) (v : ℚ) : List EdgeData :=
  match edgeD[idx]? with
  | some e => edgeD.set idx { belief := e.belief.set i v }
  | none => edgeD

/-- Read of `vertD[d].product[i]`. -/
def readProduct (vertD : List VertexData) (d i : Nat) : ℚ :=
  match vertD[d]? with
  | some v => v.product.getD i 0
  | none => 0

/-- Write `vertD[d].product[i] = v`. -/
def writeProduct (vertD : List VertexData) (d i : Nat) (v : ℚ) : List VertexData :=
  match vertD[d]? with
  | some x => vertD.set d { product := x.product.set i v }
  | none => vertD

/-- Read of `vertI[d].potential[j]`. -/
def readPotential (vertI : List VertexInfo) (d j : Nat) : ℚ :=
  match vertI[d]? with
  | some v => v.potential.getD j 0
  | none => 0

/-- Read of `edgeW[idx].potential[i][j]`. -/
def readWeight (edgeW : List EdgeWeight) (idx i j : Nat) : ℚ :=
  match edgeW[idx]? with
  | some w => (w.potential.getD i []).getD j 0
  | none => 0

/-- Modelled from the spec: `CAS` is declared in a header that is not part of
the sources.  Compare-and-swap on one cell: if the cell still holds `oldV` it
is set to `newV` and the call reports success, otherwise the cell is left as
it is and the call reports failure. -/
def CAS (cell oldV newV : ℚ) : Bool × ℚ :=
  if cell = oldV then (true, newV) else (false, cell)

/-- Template `writeMult` of `numa-BP.C`:
```
volatile ET newV, oldV;
do {oldV = *a; newV = oldV * b;}
while (!CAS(a, oldV, newV));
```
run on the cell `a` with no other thread writing it between the read and the
compare-and-swap.  The fuel bounds the number of attempts; `none` means the
fuel ran out. -/
def writeMult : Nat → ℚ → ℚ → Option ℚ
  | 0, _, _ => none
  | fuel + 1, a, b =>
    let oldV := a
    let newV := oldV * b
    let r := CAS a oldV newV
    if r.1 then some r.2 else writeMult fuel r.2 b

/-- The arrays `struct BP_F` points to. -/
structure BP_F where
  edgeW : List EdgeWeight
  edgeD_curr : List EdgeData
  edgeD_next : List EdgeData
  vertI : List VertexInfo
  vertD_curr : List VertexData
  vertD_next : List VertexData
  offsets : List Int
  deriving Repr, DecidableEq

namespace BP_F

/-- The inner loop shared by `update` and `updateAtomic`:
```
edgeD_next[dstIdx].belief[i] = 0.0;
for (int j = 0; j < NSTATES; j++) {
    edgeD_next[dstIdx].belief[i] += vertI[d].potential[j]
        * edgeW[dstIdx].potential[i][j] * vertD_curr[d].product[j];
}
```
-/
def message (f : BP_F) (d dstIdx i : Nat) : BP_F :=
  forLoop (fun j g =>
      { g with edgeD_next := (writeBelief g.edgeD_next dstIdx i
          (readBelief g.edgeD_next dstIdx i +
            readPotential g.vertI d j * readWeight g.edgeW dstIdx i j *
              readProduct g.vertD_curr d j)) })
    NSTATES 0 { f with edgeD_next := writeBelief f.edgeD_next dstIdx i 0 }

/-- Member `update`:
```
intT dstIdx = offsets[s] + edgeIdx;
for (int i = 0; i < NSTATES; i++) {
    (message loop)
    vertD_next[d].product[i] = vertD_next[d].product[i] * edgeD_next[dstIdx].belief[i];
}
return 1;
```
-/
def update (f : BP_F) (s d : Nat) (edgeIdx : Int) : Bool × BP_F :=
  let dstIdx := (f.offsets.getD s 0 + edgeIdx).toNat
  (true, forLoop (fun i g =>
      let g2 := message g d dstIdx i
      { g2 with vertD_next := (writeProduct g2.vertD_next d i
          (readProduct g2.vertD_next d i * readBelief g2.edgeD_next dstIdx i)) })
    NSTATES 0 f)

/-- Member `updateAtomic`: as `update`, with the last statement of the loop
body replaced by
`writeMult(&(vertD_next[d].product[i]), edgeD_next[dstIdx].belief[i]);`.
The fuel is handed to every `writeMult`; `none` means one of them ran out. -/
def updateAtomic (fuel : Nat) (f : BP_F) (s d : Nat) (edgeIdx : Int) : Option (Bool × BP_F) :=
  let dstIdx := (f.offsets.getD s 0 + edgeIdx).toNat
  (forLoop (fun i (og : Option BP_F) =>
      og.bind (fun g =>
        let g2 := message g d dstIdx i
        (writeMult fuel (readProduct g2.vertD_next d i) (readBelief g2.edgeD_next dstIdx i)).map
          (fun v => { g2 with vertD_next := writeProduct g2.vertD_next d i v })))
    NSTATES 0 (some f)).map (fun g => (true, g))

/-- Member `cond`: `return 1;`. -/
def cond (_f : BP_F) (_d : Nat) : Bool := true

end BP_F

/-! ## Per-core shards -/

/-- The fields of `struct SPMV_subworker_arg` that the creation loop of
`SPMVThread` computes. -/
structure SPMV_subworker_arg where
  maxIter : Int
  tid : Int
  subTid : Int
  startPos : Int
  endPos : Int
  rangeLow : Int
  rangeHi : Int
  deriving Repr, DecidableEq

/-- Subworker-creation loop of `SPMVThread`:
```
int startPos = 0;
for (int i = 0; i < CORES_PER_NODE; i++) {
    arg->maxIter = maxIter; arg->tid = tid; arg->subTid = i;
    arg->rangeLow = rangeLow; arg->rangeHi = rangeHi;
    arg->startPos = startPos;
    arg->endPos = startPos + sizeOfShards[i];
    startPos = arg->endPos;
}
```
returning the arguments in creation order. -/
def SPMVThread_subworkerArgs (maxIter tid rangeLow rangeHi CORES_PER_NODE : Int)
    (sizeOfShards : List Int) : List SPMV_subworker_arg :=
  (forLoop (fun i (acc : Int × List SPMV_subworker_arg) =>
      (acc.1 + sizeOfShards.getD i 0,
       acc.2 ++ [{ maxIter := maxIter, tid := tid, subTid := i, rangeLow := rangeLow,
                   rangeHi := rangeHi, startPos := acc.1,
                   endPos := acc.1 + sizeOfShards.getD i 0 }]))
    CORES_PER_NODE.toNat 0 (0, [])).2

/-- The fields of `struct BP_subworker_arg` that the creation loop of
`BeliefPropagationThread` computes. -/
structure BP_subworker_arg where
  maxIter : Int
  tid : Int
  subTid : Int
  startPos : Int
  endPos : Int
  rangeLow : Int
  rangeHi : Int
  deriving Repr, DecidableEq

/-- Subworker-creation loop of `BeliefPropagationThread`:
```
int startPos = 0;
for (int i = 0; i < CORES_PER_NODE; i++) {
    arg->maxIter = maxIter; arg->tid = tid; arg->subTid = i;
    arg->rangeLow = rangeLow; arg->rangeHi = rangeHi;
    arg->startPos = startPos;
    arg->endPos = startPos + sizeOfShards[i];
    startPos = arg->endPos;
}
```
returning the arguments in creation order. -/
def BeliefPropagationThread_subworkerArgs (maxIter tid rangeLow rangeHi CORES_PER_NODE : Int)
    (sizeOfShards : List Int) : List BP_subworker_arg :=
  (forLoop (fun i (acc : Int × List BP_subworker_arg) =>
      (acc.1 + sizeOfShards.getD i 0,
       acc.2 ++ [{ maxIter := maxIter, tid := tid, subTid := i, rangeLow := rangeLow,
                   rangeHi := rangeHi, startPos := acc.1,
                   endPos := acc.1 + sizeOfShards.getD i 0 }]))
    CORES_PER_NODE.toNat 0 (0, [])).2

/-! ## Result dump -/

/-- Result dump of `SPMV_main`:
```
for (intT i = 0; i < GA.n; i++)
    cout << i << "\t" << ... << p_ans[hasher.hashFunc(i)] << "\n";
```
with `hasher = SPMV_Hash_F(GA.n, numOfNode)`.  One entry per line: the vertex
id, the arena index that is read, and the value read (`none` for a read
outside the arena). -/
def SPMV_main_dump (n numOfNode : Int) (p_ans : List ℚ) : List (Int × Int × Option ℚ) :=
  forLoop (fun i (out : List (Int × Int × Option ℚ)) =>
      out ++ [((i : Int), (SPMV_Hash_F.new n numOfNode).hashFunc i,
               if 0 ≤ (SPMV_Hash_F.new n numOfNode).hashFunc i then
                 p_ans[((SPMV_Hash_F.new n numOfNode).hashFunc i).toNat]?
               else none)])
    n.toNat 0 []

/-! # Theorems -/

/-! ## Arithmetic of the renumbering -/

/-- Interleaving `index ↦ (index % S) * v + index / S` lands below `S * v`
and is undone by `r ↦ r / v + (r % v) * S`. -/
theorem hash_core (S v i : Int) (hS : 0 < S) (hi0 : 0 ≤ i) (hi : i < S * v) :
    0 ≤ i % S * v + i / S ∧ i % S * v + i / S < S * v ∧
    (i % S * v + i / S) / v + (i % S * v + i / S) % v * S = i := by
  have hv : 0 < v := by
    by_contra hneg
    have hv0 : v ≤ 0 := not_lt.mp hneg
    have : S * v ≤ 0 := mul_nonpos_of_nonneg_of_nonpos hS.le hv0
    omega
  have ha0 : 0 ≤ i % S := Int.emod_nonneg i hS.ne'
  have ha1 : i % S < S := Int.emod_lt_of_pos i hS
  have hb0 : 0 ≤ i / S := Int.ediv_nonneg hi0 hS.le
  have hb1 : i / S < v := Int.ediv_lt_of_lt_mul hS (by rw [mul_comm]; exact hi)
  have hdecomp : S * (i / S) + i % S = i := Int.ediv_add_emod i S
  have hqr : (i % S * v + i / S) / v = i % S ∧ (i % S * v + i / S) % v = i / S := by
    rw [Int.ediv_emod_unique hv]
    refine ⟨by ring, hb0, hb1⟩
  have h1 : i % S * v ≤ (S - 1) * v :=
    mul_le_mul_of_nonneg_right (by omega) hv.le
  refine ⟨by positivity, by nlinarith, ?_⟩
  rw [hqr.1, hqr.2]
  linarith [mul_comm (i / S) S]

/-- Truncating and flooring division agree on the values the hash sees. -/
theorem tdiv_tmod_nonneg (a b : Int) (ha : 0 ≤ a) (hb : 0 ≤ b) :
    Int.tdiv a b = a / b ∧ Int.tmod a b = a % b :=
  ⟨Int.tdiv_eq_ediv ha hb, Int.tmod_eq_emod ha hb⟩

theorem SPMV_hash_roundtrip (n S i : Int) (hn : 0 ≤ n) (hS : 1 ≤ S) (hi0 : 0 ≤ i) :
    (SPMV_Hash_F.new n S).hashBackFunc ((SPMV_Hash_F.new n S).hashFunc i) = i := by
  have hv : Int.tdiv n S = n / S := Int.tdiv_eq_ediv hn (by omega)
  have hv0 : 0 ≤ n / S := Int.ediv_nonneg hn (by omega)
  simp only [SPMV_Hash_F.new, SPMV_Hash_F.hashFunc, SPMV_Hash_F.hashBackFunc, hv]
  by_cases hge : i ≥ S * (n / S)
  · simp [hge]
  · have hlt : i < S * (n / S) := not_le.mp hge
    obtain ⟨h0, h1, h2⟩ := hash_core S (n / S) i (by omega) hi0 hlt
    rw [if_neg hge]
    simp only [(tdiv_tmod_nonneg i S hi0 (by omega)).1, (tdiv_tmod_nonneg i S hi0 (by omega)).2]
    rw [if_neg (not_le.mpr h1)]
    simp only [(tdiv_tmod_nonneg _ (n / S) h0 hv0).1, (tdiv_tmod_nonneg _ (n / S) h0 hv0).2]
    exact h2

theorem BP_hash_roundtrip (n S i : Int) (hn : 0 ≤ n) (hS : 1 ≤ S) (hi0 : 0 ≤ i) :
    (BP_Hash_F.new n S).hashBackFunc ((BP_Hash_F.new n S).hashFunc i) = i := by
  have hv : Int.tdiv n S = n / S := Int.tdiv_eq_ediv hn (by omega)
  have hv0 : 0 ≤ n / S := Int.ediv_nonneg hn (by omega)
  simp only [BP_Hash_F.new, BP_Hash_F.hashFunc, BP_Hash_F.hashBackFunc, hv]
  by_cases hge : i ≥ S * (n / S)
  · simp [hge]
  · have hlt : i < S * (n / S) := not_le.mp hge
    obtain ⟨h0, h1, h2⟩ := hash_core S (n / S) i (by omega) hi0 hlt
    rw [if_neg hge]
    simp only [(tdiv_tmod_nonneg i S hi0 (by omega)).1, (tdiv_tmod_nonneg i S hi0 (by omega)).2]
    rw [if_neg (not_le.mpr h1)]
    simp only [(tdiv_tmod_nonneg _ (n / S) h0 hv0).1, (tdiv_tmod_nonneg _ (n / S) h0 hv0).2]
    exact h2

/-- C1: for every vertex count `n ≥ 0`, shard count `shardNum ≥ 1` and index
`0 ≤ i < n`, `hashBackFunc (hashFunc i) = i`, for `SPMV_Hash_F(n, shardNum)` and
for `BP_Hash_F(n, shardNum)`. -/
theorem C1_hashBack_hashFunc (n shardNum i : Int) (hn : 0 ≤ n) (hS : 1 ≤ shardNum)
    (hi0 : 0 ≤ i) (_hi : i < n) :
    (SPMV_Hash_F.new n shardNum).hashBackFunc ((SPMV_Hash_F.new n shardNum).hashFunc i) = i ∧
    (BP_Hash_F.new n shardNum).hashBackFunc ((BP_Hash_F.new n shardNum).hashFunc i) = i :=
  ⟨SPMV_hash_roundtrip n shardNum i hn hS hi0, BP_hash_roundtrip n shardNum i hn hS hi0⟩

/-- C1 at `n = 10`, `shardNum = 3`, `i = 7` (shard 1, slot 2, arena index 5). -/
theorem C1_hashBack_hashFunc_witness :
    (0:Int) ≤ 10 ∧ (1:Int) ≤ 3 ∧ (0:Int) ≤ 7 ∧ (7:Int) < 10 ∧
    (SPMV_Hash_F.new 10 3).hashFunc 7 = 5 ∧
    (SPMV_Hash_F.new 10 3).hashBackFunc ((SPMV_Hash_F.new 10 3).hashFunc 7) = 7 ∧
    (BP_Hash_F.new 10 3).hashBackFunc ((BP_Hash_F.new 10 3).hashFunc 7) = 7 :=
  ⟨by decide, by decide, by decide, by decide, by decide,
    C1_hashBack_hashFunc 10 3 7 (by decide) (by decide) (by decide) (by decide)⟩

/-! ## Counted loops -/

/-- Unfolding a counted loop at its last round. -/
theorem forLoop_succ_right {σ : Type} (body : Nat → σ → σ) (k i : Nat) (s : σ) :
    forLoop body (k + 1) i s = body (i + k) (forLoop body k i s) := by
  induction k generalizing i s with
  | zero => simp [forLoop]
  | succ k ih =>
    rw [forLoop, ih (i + 1) (body i s)]
    have h : i + 1 + k = i + (k + 1) := by omega
    rw [h]
    rfl

/-- A loop that stores `g i` in cell `i` keeps the length. -/
theorem forLoop_set_length {α : Type} (g : Nat → α) (k lo : Nat) (a : List α) :
    (forLoop (fun i a => a.set i (g i)) k lo a).length = a.length := by
  induction k with
  | zero => simp [forLoop]
  | succ k ih => rw [forLoop_succ_right]; simp [ih]

/-- A loop that stores `g i` in cell `i` for `lo ≤ i < lo + k` changes exactly
those cells. -/
theorem forLoop_set_getElem? {α : Type} (g : Nat → α) (k lo : Nat) (a : List α) (j : Nat) :
    (forLoop (fun i a => a.set i (g i)) k lo a)[j]? =
      if lo ≤ j ∧ j < lo + k ∧ j < a.length then some (g j) else a[j]? := by
  induction k with
  | zero =>
    simp only [forLoop]
    rw [if_neg]
    omega
  | succ k ih =>
    rw [forLoop_succ_right]
    simp only [List.getElem?_set, forLoop_set_length, ih]
    by_cases h1 : lo + k = j
    · subst h1
      by_cases h2 : lo + k < a.length
      · simp [h2]
      · have h4 : a[lo + k]? = none := List.getElem?_eq_none (by omega)
        simp [h2, h4]
    · simp only [h1, if_false]
      by_cases h3 : lo ≤ j ∧ j < lo + k ∧ j < a.length
      · rw [if_pos h3, if_pos ⟨h3.1, by omega, h3.2.2⟩]
      · rw [if_neg h3, if_neg]
        intro h4
        exact h3 ⟨h4.1, by omega, h4.2.2⟩

/-! ## Ranges cut out by running sums -/

theorem sum_take_nonneg (sz : List Int) (hnn : ∀ x ∈ sz, 0 ≤ x) (i : Nat) :
    0 ≤ (sz.take i).sum :=
  List.sum_nonneg (fun x hx => hnn x (List.mem_of_mem_take hx))

/-- Consecutive ranges `[Σ_{j<i} sz[j], Σ_{j≤i} sz[j])` of non-negative sizes:
every value below the total lies in exactly one of them. -/
theorem running_sum_cover (sz : List Int) (hnn : ∀ x ∈ sz, 0 ≤ x) (v : Int) (hv0 : 0 ≤ v)
    (hv : v < sz.sum) :
    ∃! i, i < sz.length ∧ (sz.take i).sum ≤ v ∧ v < (sz.take (i + 1)).sum := by
  induction sz generalizing v with
  | nil => simp at hv; omega
  | cons a t ih =>
    have ha : 0 ≤ a := hnn a (List.mem_cons_self a t)
    have ht : ∀ x ∈ t, 0 ≤ x := fun x hx => hnn x (List.mem_cons_of_mem a hx)
    by_cases hva : v < a
    · refine ⟨0, ⟨by simp, by simpa using hv0, by simpa using hva⟩, ?_⟩
      rintro j ⟨_, hj1, _⟩
      cases j with
      | zero => rfl
      | succ j =>
        exfalso
        simp only [List.take_succ_cons, List.sum_cons] at hj1
        have := sum_take_nonneg t ht j
        omega
    · have hv2 : v - a < t.sum := by simp only [List.sum_cons] at hv; omega
      obtain ⟨i, ⟨hi0, hi1, hi2⟩, huniq⟩ := ih ht (v - a) (by omega) hv2
      refine ⟨i + 1, ⟨by simpa using hi0, ?_, ?_⟩, ?_⟩
      · simp only [List.take_succ_cons, List.sum_cons]; omega
      · simp only [List.take_succ_cons, List.sum_cons]; omega
      · rintro j ⟨hj0, hj1, hj2⟩
        cases j with
        | zero =>
          exfalso
          simp at hj2
          omega
        | succ j =>
          simp only [List.take_succ_cons, List.sum_cons] at hj1 hj2
          have := huniq j ⟨by simpa using hj0, by omega, by omega⟩
          omega

/-! ## Socket sizing of `BeliefPropagation` -/

theorem sum_take_succ_getD (l : List Int) (k : Nat) :
    (l.take (k + 1)).sum = (l.take k).sum + l.getD k 0 := by
  rw [List.take_succ, List.sum_append, List.getD_eq_getElem?_getD]
  cases l[k]? <;> simp

/-- The sizing writes `subShardSize` to the first `numOfNode - 1` cells and the
remainder to the last one. -/
theorem BeliefPropagation_sizeArr_eq (PAGESIZE n S : Int) (init : List Int) (hS : 1 ≤ S)
    (hlen : init.length = S.toNat) :
    BeliefPropagation_sizeArr PAGESIZE n S init =
      List.replicate (S.toNat - 1) (BeliefPropagation_subShardSize PAGESIZE n S) ++
        [n - BeliefPropagation_subShardSize PAGESIZE n S * (S - 1)] := by
  have hS1 : (S - 1).toNat = S.toNat - 1 := by omega
  have hpos : 1 ≤ S.toNat := by omega
  apply List.ext_getElem?
  intro j
  simp only [BeliefPropagation_sizeArr, List.getElem?_set, forLoop_set_length,
    forLoop_set_getElem?, hS1, hlen]
  by_cases h1 : S.toNat - 1 = j
  · subst h1
    have hS0 : 0 < S := by omega
    rw [List.getElem?_append_right (by simp)]
    simp [hS0]
  · simp only [h1, if_false]
    by_cases h2 : j < S.toNat - 1
    · rw [if_pos ⟨by omega, by omega, by omega⟩, List.getElem?_append_left (by simpa using h2)]
      simp [h2]
    · rw [if_neg (by omega), List.getElem?_eq_none (by omega),
        List.getElem?_eq_none (by simp; omega)]

/-- The page-aligned quotient is non-negative and at most `n / S`. -/
theorem BeliefPropagation_subShardSize_bounds (PAGESIZE n S : Int) (hP : 8 ≤ PAGESIZE)
    (hn : 0 ≤ n) (hS : 1 ≤ S) :
    0 ≤ BeliefPropagation_subShardSize PAGESIZE n S ∧
    BeliefPropagation_subShardSize PAGESIZE n S ≤ n / S ∧
    BeliefPropagation_subShardSize PAGESIZE n S * (S - 1) ≤ n := by
  have hv : BeliefPropagation_vertPerPage PAGESIZE = PAGESIZE / 8 := by
    simp only [BeliefPropagation_vertPerPage, sizeof_double]
    exact Int.tdiv_eq_ediv (by omega) (by omega)
  have hvpos : 0 < PAGESIZE / 8 := by omega
  have hq0 : 0 ≤ n / S := Int.ediv_nonneg hn (by omega)
  have hsub : BeliefPropagation_subShardSize PAGESIZE n S = n / S / (PAGESIZE / 8) * (PAGESIZE / 8) := by
    simp only [BeliefPropagation_subShardSize, hv]
    rw [Int.tdiv_eq_ediv hn (by omega), Int.tdiv_eq_ediv hq0 hvpos.le]
  rw [hsub]
  have h0 : 0 ≤ n / S / (PAGESIZE / 8) := Int.ediv_nonneg hq0 hvpos.le
  have h1 : n / S / (PAGESIZE / 8) * (PAGESIZE / 8) ≤ n / S := Int.ediv_mul_le _ hvpos.ne'
  have h2 : n / S * S ≤ n := Int.ediv_mul_le _ (by omega)
  refine ⟨mul_nonneg h0 hvpos.le, h1, ?_⟩
  have h3 : n / S / (PAGESIZE / 8) * (PAGESIZE / 8) * (S - 1) ≤ n / S * (S - 1) :=
    mul_le_mul_of_nonneg_right h1 (by omega)
  nlinarith

/-- The creation loop hands socket `i` the range from the running sum of the
sizes before it to the running sum including it. -/
theorem BeliefPropagation_workerArgs_loop (maxIter numOfNode : Int) (sizeArr : List Int)
    (k : Nat) :
    forLoop (fun i (acc : Int × List BP_worker_arg) =>
        (acc.1 + sizeArr.getD i 0,
         acc.2 ++ [{ maxIter := maxIter, tid := i, numOfNode := numOfNode,
                     rangeLow := acc.1, rangeHi := acc.1 + sizeArr.getD i 0 }]))
      k 0 (0, []) =
    ((sizeArr.take k).sum,
     (List.range k).map (fun i =>
       { maxIter := maxIter, tid := (i : Int), numOfNode := numOfNode,
         rangeLow := (sizeArr.take i).sum, rangeHi := (sizeArr.take (i + 1)).sum })) := by
  induction k with
  | zero => simp [forLoop]
  | succ k ih =>
    rw [forLoop_succ_right, ih]
    simp [List.range_succ, sum_take_succ_getD]

theorem BeliefPropagation_workerArgs_eq (maxIter numOfNode : Int) (sizeArr : List Int) :
    BeliefPropagation_workerArgs maxIter numOfNode sizeArr =
      (List.range numOfNode.toNat).map (fun i =>
        { maxIter := maxIter, tid := (i : Int), numOfNode := numOfNode,
          rangeLow := (sizeArr.take i).sum, rangeHi := (sizeArr.take (i + 1)).sum }) := by
  unfold BeliefPropagation_workerArgs
  rw [BeliefPropagation_workerArgs_loop]

theorem BeliefPropagation_workerArgs_getElem? (maxIter numOfNode : Int) (sizeArr : List Int)
    (i : Nat) (a : BP_worker_arg)
    (h : (BeliefPropagation_workerArgs maxIter numOfNode sizeArr)[i]? = some a) :
    i < numOfNode.toNat ∧ a.rangeLow = (sizeArr.take i).sum ∧
      a.rangeHi = (sizeArr.take (i + 1)).sum := by
  rw [BeliefPropagation_workerArgs_eq] at h
  simp only [List.getElem?_map, List.getElem?_range, Option.map_eq_some'] at h
  obtain ⟨j, hj, rfl⟩ := h
  by_cases hi : i < numOfNode.toNat
  · rw [List.getElem?_range hi] at hj
    cases hj
    exact ⟨hi, rfl, rfl⟩
  · rw [List.getElem?_eq_none (by simpa using hi)] at hj
    cases hj

theorem BeliefPropagation_sizeArr_props (PAGESIZE n S : Int) (init : List Int)
    (hP : 8 ≤ PAGESIZE) (hn : 0 ≤ n) (hS : 1 ≤ S) (hlen : init.length = S.toNat) :
    (BeliefPropagation_sizeArr PAGESIZE n S init).length = S.toNat ∧
    (BeliefPropagation_sizeArr PAGESIZE n S init).sum = n ∧
    ∀ x ∈ BeliefPropagation_sizeArr PAGESIZE n S init, 0 ≤ x := by
  obtain ⟨hq0, _, hq2⟩ := BeliefPropagation_subShardSize_bounds PAGESIZE n S hP hn hS
  rw [BeliefPropagation_sizeArr_eq PAGESIZE n S init hS hlen]
  have hcast : ((S.toNat - 1 : Nat) : Int) = S - 1 := by omega
  refine ⟨by simp; omega, ?_, ?_⟩
  · simp only [List.sum_append, List.sum_replicate, List.sum_singleton, smul_eq_mul,
      nsmul_eq_mul, hcast]
    ring
  · intro x hx
    simp only [List.mem_append, List.mem_replicate, List.mem_singleton] at hx
    rcases hx with ⟨_, rfl⟩ | rfl
    · exact hq0
    · omega

/-- C2: in the equal-and-page-aligned sizing of `BeliefPropagation`, for every
`n ≥ 0` and socket count `S ≥ 1` the sizes `sizeArr[0..S)` sum to `n`, and the
socket ranges derived by running sums are consecutive (`rangeLow_0 = 0`,
`rangeHi_i = rangeLow_{i+1}`, `rangeHi_{S-1} = n`), so every vertex of `[0, n)`
lies in exactly one of them.  `PAGESIZE` holds at least one `double`. -/
theorem C2_partition_coverage (PAGESIZE n S maxIter : Int) (init : List Int)
    (hP : 8 ≤ PAGESIZE) (hn : 0 ≤ n) (hS : 1 ≤ S) (hlen : init.length = S.toNat) :
    (BeliefPropagation_sizeArr PAGESIZE n S init).length = S.toNat ∧
    (BeliefPropagation_sizeArr PAGESIZE n S init).sum = n ∧
    (BeliefPropagation_workerArgs maxIter S
      (BeliefPropagation_sizeArr PAGESIZE n S init)).length = S.toNat ∧
    (∀ a, (BeliefPropagation_workerArgs maxIter S
      (BeliefPropagation_sizeArr PAGESIZE n S init))[0]? = some a → a.rangeLow = 0) ∧
    (∀ i a b,
      (BeliefPropagation_workerArgs maxIter S
        (BeliefPropagation_sizeArr PAGESIZE n S init))[i]? = some a →
      (BeliefPropagation_workerArgs maxIter S
        (BeliefPropagation_sizeArr PAGESIZE n S init))[i + 1]? = some b →
      a.rangeLow ≤ a.rangeHi ∧ a.rangeHi = b.rangeLow) ∧
    (∀ a, (BeliefPropagation_workerArgs maxIter S
      (BeliefPropagation_sizeArr PAGESIZE n S init))[S.toNat - 1]? = some a →
      a.rangeLow ≤ a.rangeHi ∧ a.rangeHi = n) ∧
    (∀ v, 0 ≤ v → v < n → ∃! i : Nat, ∃ a : BP_worker_arg,
      (BeliefPropagation_workerArgs maxIter S
        (BeliefPropagation_sizeArr PAGESIZE n S init))[i]? = some a ∧
      a.rangeLow ≤ v ∧ v < a.rangeHi) := by
  obtain ⟨hl, hsum, hnn⟩ := BeliefPropagation_sizeArr_props PAGESIZE n S init hP hn hS hlen
  have hstep : ∀ i, ((BeliefPropagation_sizeArr PAGESIZE n S init).take i).sum ≤
      ((BeliefPropagation_sizeArr PAGESIZE n S init).take (i + 1)).sum := by
    intro i
    rw [sum_take_succ_getD, List.getD_eq_getElem?_getD]
    cases hc : (BeliefPropagation_sizeArr PAGESIZE n S init)[i]? with
    | none => simp
    | some x =>
      have := hnn x (List.mem_iff_getElem?.mpr ⟨i, hc⟩)
      simpa using this
  refine ⟨hl, hsum, ?_, ?_, ?_, ?_, ?_⟩
  · simp [BeliefPropagation_workerArgs_eq]
  · intro a ha
    obtain ⟨_, h1, _⟩ := BeliefPropagation_workerArgs_getElem? _ _ _ _ _ ha
    simpa using h1
  · intro i a b ha hb
    obtain ⟨_, h1, h2⟩ := BeliefPropagation_workerArgs_getElem? _ _ _ _ _ ha
    obtain ⟨_, h3, _⟩ := BeliefPropagation_workerArgs_getElem? _ _ _ _ _ hb
    rw [h1, h2, h3]
    exact ⟨hstep i, rfl⟩
  · intro a ha
    obtain ⟨_, h1, h2⟩ := BeliefPropagation_workerArgs_getElem? _ _ _ _ _ ha
    have hpos : 1 ≤ S.toNat := by omega
    refine ⟨by rw [h1, h2]; exact hstep _, ?_⟩
    rw [h2, Nat.sub_add_cancel hpos, ← hl, List.take_length, hsum]
  · intro v hv0 hv
    obtain ⟨i, ⟨hi0, hi1, hi2⟩, huniq⟩ :=
      running_sum_cover (BeliefPropagation_sizeArr PAGESIZE n S init) hnn v hv0 (by rw [hsum]; exact hv)
    refine ⟨i, ⟨{ maxIter := maxIter, tid := (i : Int), numOfNode := S,
                  rangeLow := ((BeliefPropagation_sizeArr PAGESIZE n S init).take i).sum,
                  rangeHi := ((BeliefPropagation_sizeArr PAGESIZE n S init).take (i + 1)).sum },
                ?_, hi1, hi2⟩, ?_⟩
    · rw [BeliefPropagation_workerArgs_eq, List.getElem?_map,
        List.getElem?_range (by rw [← hl]; exact hi0)]
      rfl
    · rintro j ⟨a, ha, ha1, ha2⟩
      obtain ⟨hj, h1, h2⟩ := BeliefPropagation_workerArgs_getElem? _ _ _ _ _ ha
      exact huniq j ⟨by rw [hl]; exact hj, by rw [← h1]; exact ha1, by rw [← h2]; exact ha2⟩

/-- C2 at `PAGESIZE = 4096`, `n = 2000`, `S = 3`: sizes `[512, 512, 976]`. -/
theorem C2_partition_coverage_witness :
    BeliefPropagation_sizeArr 4096 2000 3 [0, 0, 0] = [512, 512, 976] ∧
    (BeliefPropagation_workerArgs 5 3 [512, 512, 976]).map (fun a => (a.rangeLow, a.rangeHi)) =
      [(0, 512), (512, 1024), (1024, 2000)] ∧
    (BeliefPropagation_sizeArr 4096 2000 3 [0, 0, 0]).sum = 2000 :=
  ⟨by decide, by decide,
    (C2_partition_coverage 4096 2000 3 5 [0, 0, 0] (by decide) (by decide) (by decide)
      (by decide)).2.1⟩

/-! ## The iteration loop of the subworkers -/

/-- Loop rule for a positive bound.  From `currIter = c` with `k` iterations
left and more than `k` units of fuel, the loop reaches its `break` with
`currIter = maxIter`; the guard lets control into the body exactly `k` times, at
`currIter = c, c + 1, …`, and a property kept by the body holds throughout. -/
theorem subworkerLoop_bounded {σ : Type} (maxIter : Int) (body : Int → σ → σ)
    (Inv : Int → σ → Prop)
    (hstep : ∀ c s, Inv c s → c < maxIter → Inv (c + 1) (body (c + 1) s))
    (hpos : 0 < maxIter) (k : Nat) :
    ∀ (fuel : Nat) (c : Int) (st : σ) (log : List (Int × σ)),
      c + k = maxIter → k < fuel → Inv c st →
      (subworkerLoop maxIter body fuel c st log).exited = true ∧
      (subworkerLoop maxIter body fuel c st log).currIter = maxIter ∧
      Inv maxIter (subworkerLoop maxIter body fuel c st log).state ∧
      ∃ new : List (Int × σ),
        (subworkerLoop maxIter body fuel c st log).entered = log ++ new ∧
        new.length = k ∧
        ∀ (j : Nat) (e : Int × σ),
          new[j]? = some e → e.1 = c + (j : Int) ∧ e.1 < maxIter ∧ Inv e.1 e.2 := by
  induction k with
  | zero =>
    intro fuel c st log hc hf hinv
    obtain ⟨f, rfl⟩ : ∃ f, fuel = f + 1 := ⟨fuel - 1, by omega⟩
    have hcm : c = maxIter := by simpa using hc
    subst hcm
    have hg : c > 0 ∧ c ≥ c := ⟨hpos, le_refl c⟩
    rw [subworkerLoop, if_pos hg]
    exact ⟨rfl, rfl, hinv, [], by simp, rfl, by simp⟩
  | succ k ih =>
    intro fuel c st log hc hf hinv
    obtain ⟨f, rfl⟩ : ∃ f, fuel = f + 1 := ⟨fuel - 1, by omega⟩
    have hlt : c < maxIter := by push_cast at hc; omega
    have hg : ¬ (maxIter > 0 ∧ c ≥ maxIter) := fun h => by omega
    rw [subworkerLoop, if_neg hg]
    obtain ⟨h1, h2, h3, new, h4, h5, h6⟩ :=
      ih f (c + 1) (body (c + 1) st) (log ++ [(c, st)]) (by push_cast at hc; omega) (by omega)
        (hstep c st hinv hlt)
    refine ⟨h1, h2, h3, (c, st) :: new, by simp [h4], by simp [h5], ?_⟩
    intro j e hj
    cases j with
    | zero =>
      simp only [List.getElem?_cons_zero, Option.some.injEq] at hj
      subst hj
      exact ⟨by simp, hlt, hinv⟩
    | succ j =>
      simp only [List.getElem?_cons_succ] at hj
      obtain ⟨a, b, d⟩ := h6 j e hj
      exact ⟨by push_cast; omega, b, d⟩

/-- Loop rule for a bound that is not positive: the guard never fires, so
however much fuel is given the `break` is not reached and every unit of fuel
is one more pass through the body. -/
theorem subworkerLoop_unbounded {σ : Type} (maxIter : Int) (body : Int → σ → σ)
    (hle : maxIter ≤ 0) (fuel : Nat) :
    ∀ (c : Int) (st : σ) (log : List (Int × σ)),
      (subworkerLoop maxIter body fuel c st log).exited = false ∧
      (subworkerLoop maxIter body fuel c st log).currIter = c + fuel ∧
      (subworkerLoop maxIter body fuel c st log).entered.length = log.length + fuel := by
  induction fuel with
  | zero => intro c st log; simp [subworkerLoop]
  | succ f ih =>
    intro c st log
    have hg : ¬ (maxIter > 0 ∧ c ≥ maxIter) := fun h => by omega
    rw [subworkerLoop, if_neg hg]
    obtain ⟨h1, h2, h3⟩ := ih (c + 1) (body (c + 1) st) (log ++ [(c, st)])
    refine ⟨h1, by rw [h2]; push_cast; ring, by rw [h3]; simp; ring⟩

/-- Summary of `subworkerLoop_bounded` from `currIter = 0` with an empty log. -/
theorem subworkerLoop_from_zero {σ : Type} (maxIter : Int) (body : Int → σ → σ)
    (hpos : 0 < maxIter) (fuel : Nat) (hfuel : maxIter.toNat < fuel) (st : σ) :
    (subworkerLoop maxIter body fuel 0 st []).exited = true ∧
    (subworkerLoop maxIter body fuel 0 st []).currIter = maxIter ∧
    ((subworkerLoop maxIter body fuel 0 st []).entered.length : Int) = maxIter ∧
    ∀ e ∈ (subworkerLoop maxIter body fuel 0 st []).entered, 0 ≤ e.1 ∧ e.1 < maxIter := by
  obtain ⟨h1, h2, _, new, h4, h5, h6⟩ :=
    subworkerLoop_bounded maxIter body (fun _ _ => True) (fun _ _ _ _ => trivial) hpos
      maxIter.toNat fuel 0 st [] (by omega) hfuel trivial
  refine ⟨h1, h2, by rw [h4]; simp [h5]; omega, ?_⟩
  intro e he
  rw [h4, List.nil_append] at he
  obtain ⟨j, hj⟩ := List.mem_iff_getElem?.mp he
  obtain ⟨a, b, _⟩ := h6 j e hj
  exact ⟨by omega, b⟩

/-- C3: for every `maxIter > 0` the iteration loop of `SPMVSubWorker` and of
`BeliefPropagationSubWorker` reaches its `break` (any fuel above `maxIter` is
enough) after the body was entered exactly `maxIter` times; `currIter` equals
`maxIter` at exit, and at every entry into the body the guard saw
`0 ≤ currIter < maxIter`. -/
theorem C3_loop_runs_maxIter_times (maxIter : Int) (hpos : 0 < maxIter) (fuel : Nat)
    (hfuel : maxIter.toNat < fuel)
    (All : List Bool) (n : Nat) (sched : Int → List WghEdge) (st : SPMV_State)
    (Frontier : List Bool) (nB : Nat) (edgeMapDenseBP : BP_State → BP_State) (stB : BP_State) :
    ((SPMVSubWorker All n sched maxIter fuel st).exited = true ∧
     (SPMVSubWorker All n sched maxIter fuel st).currIter = maxIter ∧
     ((SPMVSubWorker All n sched maxIter fuel st).entered.length : Int) = maxIter ∧
     ∀ e ∈ (SPMVSubWorker All n sched maxIter fuel st).entered, 0 ≤ e.1 ∧ e.1 < maxIter) ∧
    ((BeliefPropagationSubWorker Frontier nB edgeMapDenseBP maxIter fuel stB).exited = true ∧
     (BeliefPropagationSubWorker Frontier nB edgeMapDenseBP maxIter fuel stB).currIter = maxIter ∧
     ((BeliefPropagationSubWorker Frontier nB edgeMapDenseBP maxIter fuel stB).entered.length : Int)
       = maxIter ∧
     ∀ e ∈ (BeliefPropagationSubWorker Frontier nB edgeMapDenseBP maxIter fuel stB).entered,
       0 ≤ e.1 ∧ e.1 < maxIter) :=
  ⟨subworkerLoop_from_zero maxIter _ hpos fuel hfuel st,
   subworkerLoop_from_zero maxIter _ hpos fuel hfuel stB⟩

/-- C3 at `maxIter = 3` with fuel `4`, on the chain `0→1→2→3` for SPMV and on
one vertex with an idle edge pass for BP. -/
theorem C3_loop_runs_maxIter_times_witness :
    (0 : Int) < 3 ∧ (3 : Int).toNat < 4 ∧
    (SPMVSubWorker [true, true, true, true] 4 (fun _ => [⟨0, 1, 1⟩, ⟨1, 2, 1⟩, ⟨2, 3, 1⟩]) 3 4
      ⟨[1, 0, 0, 0], [0, 0, 0, 0], [false, false, false, false]⟩).currIter = 3 ∧
    (BeliefPropagationSubWorker [true, true] 2 (fun s => s) 3 4
      ⟨[⟨[1, 1]⟩, ⟨[1, 1]⟩], [⟨[1, 1]⟩, ⟨[1, 1]⟩], [], [], 0⟩).exited = true :=
  ⟨by decide, by decide,
   (C3_loop_runs_maxIter_times 3 (by decide) 4 (by decide)
      [true, true, true, true] 4 (fun _ => [⟨0, 1, 1⟩, ⟨1, 2, 1⟩, ⟨2, 3, 1⟩])
      ⟨[1, 0, 0, 0], [0, 0, 0, 0], [false, false, false, false]⟩
      [true, true] 2 (fun s => s)
      ⟨[⟨[1, 1]⟩, ⟨[1, 1]⟩], [⟨[1, 1]⟩, ⟨[1, 1]⟩], [], [], 0⟩).1.2.1,
   (C3_loop_runs_maxIter_times 3 (by decide) 4 (by decide)
      [true, true, true, true] 4 (fun _ => [⟨0, 1, 1⟩, ⟨1, 2, 1⟩, ⟨2, 3, 1⟩])
      ⟨[1, 0, 0, 0], [0, 0, 0, 0], [false, false, false, false]⟩
      [true, true] 2 (fun s => s)
      ⟨[⟨[1, 1]⟩, ⟨[1, 1]⟩], [⟨[1, 1]⟩, ⟨[1, 1]⟩], [], [], 0⟩).2.1⟩

/-- C4, as stated, fails on the chain `0→1→2→3` with input `[1,0,0,0]`: with
`maxIter = 0` the first pass of the loop of `SPMVSubWorker` enters the body and
leaves `p_curr = [0,1,0,0]`, not the initial arena; the loop has not stopped
then, and it stops for no amount of fuel. -/
theorem C4_maxIter_zero_counterexample :
    (SPMVSubWorker [true, true, true, true] 4 (fun _ => [⟨0, 1, 1⟩, ⟨1, 2, 1⟩, ⟨2, 3, 1⟩]) 0 1
      ⟨[1, 0, 0, 0], [0, 0, 0, 0], [false, false, false, false]⟩).entered.length = 1 ∧
    (SPMVSubWorker [true, true, true, true] 4 (fun _ => [⟨0, 1, 1⟩, ⟨1, 2, 1⟩, ⟨2, 3, 1⟩]) 0 1
      ⟨[1, 0, 0, 0], [0, 0, 0, 0], [false, false, false, false]⟩).exited = false ∧
    (SPMVSubWorker [true, true, true, true] 4 (fun _ => [⟨0, 1, 1⟩, ⟨1, 2, 1⟩, ⟨2, 3, 1⟩]) 0 1
      ⟨[1, 0, 0, 0], [0, 0, 0, 0], [false, false, false, false]⟩).state.p_curr = [0, 1, 0, 0] ∧
    ([0, 1, 0, 0] : List ℚ) ≠ [1, 0, 0, 0] ∧
    ¬ ∃ fuel : Nat,
      (SPMVSubWorker [true, true, true, true] 4 (fun _ => [⟨0, 1, 1⟩, ⟨1, 2, 1⟩, ⟨2, 3, 1⟩]) 0 fuel
        ⟨[1, 0, 0, 0], [0, 0, 0, 0], [false, false, false, false]⟩).exited = true := by
  refine ⟨by decide, by decide, ?_, by simp, ?_⟩
  · simp [SPMVSubWorker, subworkerLoop, SPMVSubWorker_iteration, edgeMapDenseForward,
      edgeMapDenseForward_visit, SPMV_F.updateAtomic, writeAdd, vertexMap, forLoop,
      SPMV_Vertex_Reset]
  · rintro ⟨fuel, h⟩
    have h0 := (subworkerLoop_unbounded 0
      (fun c s => SPMVSubWorker_iteration [true, true, true, true] 4
        ([⟨0, 1, 1⟩, ⟨1, 2, 1⟩, ⟨2, 3, 1⟩] : List WghEdge) s) (le_refl 0) fuel 0
      ⟨[1, 0, 0, 0], [0, 0, 0, 0], [false, false, false, false]⟩ []).1
    rw [SPMVSubWorker, h0] at h
    cases h

/-- C4, amended: with `maxIter = 0` the guard `maxIter > 0 && currIter >= maxIter`
is never true, so the loop of `SPMVSubWorker` and of `BeliefPropagationSubWorker`
does not stop: whatever the fuel, the `break` has not been reached and every
pass has entered the body. -/
theorem C4_maxIter_zero_never_exits (fuel : Nat)
    (All : List Bool) (n : Nat) (sched : Int → List WghEdge) (st : SPMV_State)
    (Frontier : List Bool) (nB : Nat) (edgeMapDenseBP : BP_State → BP_State) (stB : BP_State) :
    ((SPMVSubWorker All n sched 0 fuel st).exited = false ∧
     (SPMVSubWorker All n sched 0 fuel st).currIter = fuel ∧
     (SPMVSubWorker All n sched 0 fuel st).entered.length = fuel) ∧
    ((BeliefPropagationSubWorker Frontier nB edgeMapDenseBP 0 fuel stB).exited = false ∧
     (BeliefPropagationSubWorker Frontier nB edgeMapDenseBP 0 fuel stB).currIter = fuel ∧
     (BeliefPropagationSubWorker Frontier nB edgeMapDenseBP 0 fuel stB).entered.length = fuel) := by
  constructor
  · simpa [SPMVSubWorker] using subworkerLoop_unbounded 0
      (fun c s => SPMVSubWorker_iteration All n (sched c) s) (le_refl 0) fuel 0 st []
  · simpa [BeliefPropagationSubWorker] using subworkerLoop_unbounded 0
      (fun _ s => BeliefPropagationSubWorker_iteration Frontier nB edgeMapDenseBP s)
      (le_refl 0) fuel 0 stB []

/-! ## One SPMV iteration -/

/-- Two loop bodies that agree on the indices visited give the same loop. -/
theorem forLoop_congr {σ : Type} (body body2 : Nat → σ → σ) (k lo : Nat) (s : σ)
    (h : ∀ i, lo ≤ i → i < lo + k → ∀ t, body i t = body2 i t) :
    forLoop body k lo s = forLoop body2 k lo s := by
  induction k generalizing lo s with
  | zero => rfl
  | succ k ih =>
    rw [forLoop, forLoop, h lo (le_refl _) (by omega) s]
    exact ih (lo + 1) _ (fun i h1 h2 t => h i (by omega) (by omega) t)

theorem getD_set_rat (l : List ℚ) (i d : Nat) (a : ℚ) (hd : d < l.length) :
    (l.set i a).getD d 0 = if i = d then a else l.getD d 0 := by
  simp only [List.getD_eq_getElem?_getD, List.getElem?_set]
  by_cases h : i = d
  · subst h; simp [hd]
  · simp [h]

theorem getD_replicate_true (n i : Nat) (hi : i < n) :
    (List.replicate n true).getD i false = true := by
  rw [List.getD_eq_getElem?_getD, List.getElem?_replicate, if_pos hi]
  rfl

/-- With every vertex active, the reset pass zeroes the whole arena. -/
theorem vertexMap_SPMV_Vertex_Reset (n : Nat) (p : List ℚ) (hp : p.length = n) :
    vertexMap (List.replicate n true) SPMV_Vertex_Reset n p = List.replicate n 0 := by
  unfold vertexMap
  rw [forLoop_congr _ (fun i a => a.set i ((fun _ => (0 : ℚ)) i)) n 0 p]
  · apply List.ext_getElem?
    intro j
    rw [forLoop_set_getElem?, List.getElem?_replicate]
    by_cases hj : j < n
    · simp [hj, hp]
    · simp [hj, hp]
      omega
  · intro i _ hi t
    simp only [getD_replicate_true n i (by omega), SPMV_Vertex_Reset, if_true]

theorem edgeMapDenseForward_visit_active (frontier : List Bool) (f : SPMV_F) (out : List Bool)
    (e : WghEdge) (h : frontier.getD e.s false = true) :
    edgeMapDenseForward_visit frontier (f, out) e =
      ({ p_curr := f.p_curr,
         p_next := f.p_next.set e.d (f.p_next.getD e.d 0 + f.p_curr.getD e.s 0 * (e.edgeLen : ℚ)) },
       out.set e.d true) := by
  simp only [edgeMapDenseForward_visit, h, SPMV_F.updateAtomic, writeAdd, if_true]

/-- The push-forward pass over active sources leaves `p_curr` alone and adds to
each cell of `p_next` the contributions `p_curr[s] * w` of the visited edges
that point to it. -/
theorem edgeMapDenseForward_spec (frontier : List Bool) (visits : List WghEdge)
    (hact : ∀ e ∈ visits, frontier.getD e.s false = true) :
    ∀ (f : SPMV_F) (out : List Bool),
      (edgeMapDenseForward visits frontier f out).1.p_curr = f.p_curr ∧
      (edgeMapDenseForward visits frontier f out).1.p_next.length = f.p_next.length ∧
      ∀ d, d < f.p_next.length →
        (edgeMapDenseForward visits frontier f out).1.p_next.getD d 0 =
          f.p_next.getD d 0 +
            ((visits.filter (fun e => e.d = d)).map
              (fun e => f.p_curr.getD e.s 0 * (e.edgeLen : ℚ))).sum := by
  induction visits with
  | nil => intro f out; simp [edgeMapDenseForward]
  | cons e es ih =>
    intro f out
    have he := hact e (List.mem_cons_self e es)
    have hes : ∀ x ∈ es, frontier.getD x.s false = true :=
      fun x hx => hact x (List.mem_cons_of_mem e hx)
    have hunf : edgeMapDenseForward (e :: es) frontier f out =
        edgeMapDenseForward es frontier
          { p_curr := f.p_curr,
            p_next := f.p_next.set e.d
              (f.p_next.getD e.d 0 + f.p_curr.getD e.s 0 * (e.edgeLen : ℚ)) }
          (out.set e.d true) := by
      simp only [edgeMapDenseForward, List.foldl_cons]
      rw [edgeMapDenseForward_visit_active frontier f out e he]
    rw [hunf]
    obtain ⟨h1, h2, h3⟩ := ih hes
      { p_curr := f.p_curr,
        p_next := f.p_next.set e.d
          (f.p_next.getD e.d 0 + f.p_curr.getD e.s 0 * (e.edgeLen : ℚ)) }
      (out.set e.d true)
    refine ⟨h1, by rw [h2]; simp, ?_⟩
    intro d hd
    rw [h3 d (by simpa using hd), getD_set_rat _ _ _ _ hd]
    by_cases hed : e.d = d
    · subst hed
      simp [List.filter_cons]
      ring
    · simp [List.filter_cons, hed]

/-- Reordering the edges does not change the product. -/
theorem matVec_perm (n : Nat) (edges visits : List WghEdge) (h : visits.Perm edges)
    (p : List ℚ) : matVec n visits p = matVec n edges p := by
  unfold matVec
  apply List.map_congr_left
  intro d _
  exact ((h.filter _).map _).sum_eq

theorem matVec_length (n : Nat) (edges : List WghEdge) (p : List ℚ) :
    (matVec n edges p).length = n := by
  simp [matVec]

/-- One pass of the loop body of `SPMVSubWorker` on an all-active frontier and
a zeroed `p_next`: the new `p_curr` is the matrix-vector product, the new
`p_next` is zero again. -/
theorem SPMVSubWorker_iteration_spec (n : Nat) (visits : List WghEdge)
    (hv : ∀ e ∈ visits, e.s < n ∧ e.d < n) (st : SPMV_State) (hc : st.p_curr.length = n)
    (hn : st.p_next = List.replicate n 0) :
    (SPMVSubWorker_iteration (List.replicate n true) n visits st).p_curr =
      matVec n visits st.p_curr ∧
    (SPMVSubWorker_iteration (List.replicate n true) n visits st).p_next =
      List.replicate n 0 := by
  have hact : ∀ e ∈ visits, (List.replicate n true).getD e.s false = true := by
    intro e he
    exact getD_replicate_true n e.s (hv e he).1
  obtain ⟨h1, h2, h3⟩ := edgeMapDenseForward_spec (List.replicate n true) visits hact
    { p_curr := st.p_curr, p_next := st.p_next }
    (forLoop (fun i o => o.set i false) n 0 st.output)
  simp only [SPMVSubWorker_iteration]
  constructor
  · apply List.ext_getElem?
    intro d
    by_cases hd : d < n
    · have hlen : d < (edgeMapDenseForward visits (List.replicate n true)
          { p_curr := st.p_curr, p_next := st.p_next }
          (forLoop (fun i o => o.set i false) n 0 st.output)).1.p_next.length := by
        rw [h2, hn]; simpa using hd
      have h4 := h3 d (by rw [hn]; simpa using hd)
      rw [List.getD_eq_getElem?_getD, List.getElem?_eq_getElem hlen] at h4
      rw [List.getElem?_eq_getElem hlen]
      simp only [Option.getD_some] at h4
      rw [h4]
      simp [matVec, hd, hn, List.getD_eq_getElem?_getD, List.getElem?_replicate]
    · rw [List.getElem?_eq_none (by rw [h2, hn]; simpa using hd),
        List.getElem?_eq_none (by rw [matVec_length]; omega)]
  · rw [h1]
    exact vertexMap_SPMV_Vertex_Reset n st.p_curr hc

theorem matVec_getD (n : Nat) (edges : List WghEdge) (p : List ℚ) (d : Nat) (hd : d < n) :
    (matVec n edges p).getD d 0 =
      ((edges.filter (fun e => e.d = d)).map (fun e => p.getD e.s 0 * (e.edgeLen : ℚ))).sum := by
  simp [matVec, List.getD_eq_getElem?_getD, List.getElem?_range hd]

/-- C6: one SPMV iteration is a sparse matrix-vector product in exact
arithmetic.  For every graph on `n` vertices, every input `p_curr`, an
all-zero `p_next` and an all-active frontier, after the loop body (push-forward
pass calling `updateAtomic` once per out-edge in any order `visits`, then
`SPMV_Vertex_Reset`, then the swap) `p_curr[d]` is the sum of the old
`p_curr[s] * w` over the edges `(s, d, w)`, and `p_next` is zero.  On four
vertices with edges `1→2`, `3→0` of weight `1`, `[a,b,c,d]` becomes
`[d,0,b,0]`, in either visiting order. -/
theorem C6_iteration_is_matVec :
    (∀ (n : Nat) (edges visits : List WghEdge) (p_curr : List ℚ) (output : List Bool),
      visits.Perm edges → (∀ e ∈ edges, e.s < n ∧ e.d < n) → p_curr.length = n →
      (SPMVSubWorker_iteration (List.replicate n true) n visits
        ⟨p_curr, List.replicate n 0, output⟩).p_curr = matVec n edges p_curr ∧
      (∀ d, d < n →
        (SPMVSubWorker_iteration (List.replicate n true) n visits
          ⟨p_curr, List.replicate n 0, output⟩).p_curr.getD d 0 =
        ((edges.filter (fun e => e.d = d)).map
          (fun e => p_curr.getD e.s 0 * (e.edgeLen : ℚ))).sum) ∧
      (SPMVSubWorker_iteration (List.replicate n true) n visits
        ⟨p_curr, List.replicate n 0, output⟩).p_next = List.replicate n 0) ∧
    (∀ (a b c d : ℚ) (output : List Bool),
      (SPMVSubWorker_iteration [true, true, true, true] 4 [⟨1, 2, 1⟩, ⟨3, 0, 1⟩]
        ⟨[a, b, c, d], [0, 0, 0, 0], output⟩).p_curr = [d, 0, b, 0] ∧
      (SPMVSubWorker_iteration [true, true, true, true] 4 [⟨3, 0, 1⟩, ⟨1, 2, 1⟩]
        ⟨[a, b, c, d], [0, 0, 0, 0], output⟩).p_curr = [d, 0, b, 0]) := by
  constructor
  · intro n edges visits p_curr output hperm hv hlen
    have hv2 : ∀ e ∈ visits, e.s < n ∧ e.d < n := fun e he => hv e (hperm.mem_iff.mp he)
    obtain ⟨h1, h2⟩ := SPMVSubWorker_iteration_spec n visits hv2
      ⟨p_curr, List.replicate n 0, output⟩ hlen rfl
    have h3 := matVec_perm n edges visits hperm p_curr
    refine ⟨by rw [h1, h3], ?_, h2⟩
    intro d hd
    rw [h1, h3, matVec_getD n edges p_curr d hd]
  · intro a b c d output
    constructor <;>
    simp [SPMVSubWorker_iteration, edgeMapDenseForward, edgeMapDenseForward_visit,
      SPMV_F.updateAtomic, writeAdd, vertexMap, forLoop, SPMV_Vertex_Reset]

/-- C6 on the two-socket cross-edge graph with input `[1, 2, 3, 4]`: the edges
are in range, the input has four cells, and the iteration yields
`[4, 0, 2, 0]`. -/
theorem C6_iteration_is_matVec_witness :
    (∀ e ∈ ([⟨1, 2, 1⟩, ⟨3, 0, 1⟩] : List WghEdge), e.s < 4 ∧ e.d < 4) ∧
    ([1, 2, 3, 4] : List ℚ).length = 4 ∧
    matVec 4 [⟨1, 2, 1⟩, ⟨3, 0, 1⟩] [1, 2, 3, 4] = [4, 0, 2, 0] ∧
    (SPMVSubWorker_iteration (List.replicate 4 true) 4 [⟨3, 0, 1⟩, ⟨1, 2, 1⟩]
      ⟨[1, 2, 3, 4], List.replicate 4 0, []⟩).p_curr = matVec 4 [⟨1, 2, 1⟩, ⟨3, 0, 1⟩] [1, 2, 3, 4] :=
  ⟨by decide, by decide, by simp [matVec, List.range_succ, List.filter_cons],
   (C6_iteration_is_matVec.1 4 [⟨1, 2, 1⟩, ⟨3, 0, 1⟩] [⟨3, 0, 1⟩, ⟨1, 2, 1⟩] [1, 2, 3, 4] []
      (List.Perm.swap _ _ _) (by decide) (by decide)).1⟩

/-! ## SPMV on the identity matrix -/

theorem sum_take_succ_getD_nat (l : List Nat) (k : Nat) :
    (l.take (k + 1)).sum = (l.take k).sum + l.getD k 0 := by
  rw [List.take_succ, List.sum_append, List.getD_eq_getElem?_getD]
  cases l[k]? <;> simp

/-- A socket worker writes `1/n` into its range of `p_curr` and `0` into its
range of `p_next`, and nothing else. -/
theorem SPMVThread_init_spec (n : Int) (lo hi : Nat) (p : List ℚ × List ℚ) :
    (SPMVThread_init n lo hi p).1.length = p.1.length ∧
    (SPMVThread_init n lo hi p).2.length = p.2.length ∧
    (∀ j, (SPMVThread_init n lo hi p).1[j]? =
      if lo ≤ j ∧ j < lo + (hi - lo) ∧ j < p.1.length then some (1 / (n : ℚ)) else p.1[j]?) ∧
    (∀ j, (SPMVThread_init n lo hi p).2[j]? =
      if lo ≤ j ∧ j < lo + (hi - lo) ∧ j < p.2.length then some 0 else p.2[j]?) := by
  refine ⟨?_, ?_, ?_, ?_⟩
  · exact forLoop_set_length (fun _ => 1 / (n : ℚ)) _ _ _
  · exact forLoop_set_length (fun _ => (0 : ℚ)) _ _ _
  · intro j
    exact forLoop_set_getElem? (fun _ => 1 / (n : ℚ)) _ _ _ j
  · intro j
    exact forLoop_set_getElem? (fun _ => (0 : ℚ)) _ _ _ j

/-- After the first `k` socket workers have initialised their ranges, the cells
below the running sum of the sizes hold `1/n` in `p_curr` and `0` in `p_next`;
the other cells are untouched. -/
theorem SPMV_main_init_loop (n : Int) (sizeArr : List Nat) (p : List ℚ × List ℚ) (k : Nat) :
    (forLoop (fun i (acc : Nat × (List ℚ × List ℚ)) =>
        (acc.1 + sizeArr.getD i 0,
         SPMVThread_init n acc.1 (acc.1 + sizeArr.getD i 0) acc.2)) k 0 (0, p)).1 =
      (sizeArr.take k).sum ∧
    (forLoop (fun i (acc : Nat × (List ℚ × List ℚ)) =>
        (acc.1 + sizeArr.getD i 0,
         SPMVThread_init n acc.1 (acc.1 + sizeArr.getD i 0) acc.2)) k 0 (0, p)).2.1.length =
      p.1.length ∧
    (forLoop (fun i (acc : Nat × (List ℚ × List ℚ)) =>
        (acc.1 + sizeArr.getD i 0,
         SPMVThread_init n acc.1 (acc.1 + sizeArr.getD i 0) acc.2)) k 0 (0, p)).2.2.length =
      p.2.length ∧
    (∀ j, (forLoop (fun i (acc : Nat × (List ℚ × List ℚ)) =>
        (acc.1 + sizeArr.getD i 0,
         SPMVThread_init n acc.1 (acc.1 + sizeArr.getD i 0) acc.2)) k 0 (0, p)).2.1[j]? =
      if j < (sizeArr.take k).sum ∧ j < p.1.length then some (1 / (n : ℚ)) else p.1[j]?) ∧
    (∀ j, (forLoop (fun i (acc : Nat × (List ℚ × List ℚ)) =>
        (acc.1 + sizeArr.getD i 0,
         SPMVThread_init n acc.1 (acc.1 + sizeArr.getD i 0) acc.2)) k 0 (0, p)).2.2[j]? =
      if j < (sizeArr.take k).sum ∧ j < p.2.length then some 0 else p.2[j]?) := by
  induction k with
  | zero => simp [forLoop]
  | succ k ih =>
    rw [forLoop_succ_right]
    generalize forLoop (fun i (acc : Nat × (List ℚ × List ℚ)) =>
        (acc.1 + sizeArr.getD i 0,
         SPMVThread_init n acc.1 (acc.1 + sizeArr.getD i 0) acc.2)) k 0 (0, p) = acc at ih ⊢
    obtain ⟨h1, l1, l2, h2, h3⟩ := ih
    obtain ⟨e1, e2, e3, e4⟩ :=
      SPMVThread_init_spec n acc.1 (acc.1 + sizeArr.getD (0 + k) 0) acc.2
    simp only [Nat.zero_add] at e1 e2 e3 e4 ⊢
    rw [h1] at e1 e2 e3 e4
    rw [sum_take_succ_getD_nat, h1, e1, e2, l1, l2]
    refine ⟨rfl, rfl, rfl, ?_, ?_⟩
    · intro j
      rw [e3 j, h2 j, l1, Nat.add_sub_cancel_left]
      split_ifs <;> first | rfl | (exfalso; omega)
    · intro j
      rw [e4 j, h3 j, l2, Nat.add_sub_cancel_left]
      split_ifs <;> first | rfl | (exfalso; omega)

/-- When the socket sizes add up to the length of the arenas, the workers leave
`p_curr[i] = 1/n` and `p_next[i] = 0` for every `i`. -/
theorem SPMV_main_init_eq (n : Nat) (sizeArr : List Nat) (hsum : sizeArr.sum = n)
    (p : List ℚ × List ℚ) (h1 : p.1.length = n) (h2 : p.2.length = n) :
    SPMV_main_init (n : Int) sizeArr p =
      (List.replicate n (1 / (n : ℚ)), List.replicate n 0) := by
  obtain ⟨e0, _, _, e3, e4⟩ := SPMV_main_init_loop (n : Int) sizeArr p sizeArr.length
  rw [List.take_length, hsum] at e0 e3 e4
  unfold SPMV_main_init
  apply Prod.ext
  · apply List.ext_getElem?
    intro j
    rw [e3 j, List.getElem?_replicate, h1]
    by_cases hj : j < n
    · simp [hj]
    · rw [if_neg (by omega), if_neg hj, List.getElem?_eq_none (by omega)]
  · apply List.ext_getElem?
    intro j
    rw [e4 j, List.getElem?_replicate, h2]
    by_cases hj : j < n
    · simp [hj]
    · rw [if_neg (by omega), if_neg hj, List.getElem?_eq_none (by omega)]

/-- Column `d` of the identity matrix has the single entry `d → d`. -/
theorem identityEdges_column (g : WghEdge → ℚ) (d : Nat) (n : Nat) :
    (((identityEdges n).filter (fun e => e.d = d)).map g).sum =
      if d < n then g { s := d, d := d, edgeLen := 1 } else 0 := by
  induction n with
  | zero => simp [identityEdges]
  | succ n ih =>
    have hsplit : identityEdges (n + 1) = identityEdges n ++ [{ s := n, d := n, edgeLen := 1 }] := by
      simp [identityEdges, List.range_succ]
    rw [hsplit, List.filter_append, List.map_append, List.sum_append, ih]
    by_cases h1 : d < n
    · have h2 : ¬ n = d := by omega
      simp [h1, h2, List.filter_cons, Nat.lt_succ_of_lt h1]
    · by_cases h2 : n = d
      · subst h2
        simp [List.filter_cons]
      · have h3 : ¬ d < n + 1 := by omega
        simp [h1, h2, h3, List.filter_cons]

/-- The identity matrix fixes every vector of the right length. -/
theorem matVec_identityEdges (n : Nat) (p : List ℚ) (hp : p.length = n) :
    matVec n (identityEdges n) p = p := by
  apply List.ext_getElem?
  intro d
  by_cases hd : d < n
  · have h := matVec_getD n (identityEdges n) p d hd
    rw [identityEdges_column, if_pos hd] at h
    have hl : d < (matVec n (identityEdges n) p).length := by rw [matVec_length]; exact hd
    rw [List.getD_eq_getElem?_getD, List.getElem?_eq_getElem hl] at h
    rw [List.getElem?_eq_getElem hl, List.getElem?_eq_getElem (by omega)]
    simp only [Option.getD_some, List.getD_eq_getElem?_getD] at h
    rw [List.getElem?_eq_getElem (by omega)] at h
    simp only [Option.getD_some, Int.cast_one, mul_one] at h
    rw [h]
  · rw [List.getElem?_eq_none (by rw [matVec_length]; omega), List.getElem?_eq_none (by omega)]

/-- A run of the SPMV loop with `maxIter = 1` performs the body once. -/
theorem SPMVSubWorker_one (All : List Bool) (n : Nat) (sched : Int → List WghEdge) (fuel : Nat)
    (hfuel : 2 ≤ fuel) (st : SPMV_State) :
    p_ans (SPMVSubWorker All n sched 1 fuel st) =
      some (SPMVSubWorker_iteration All n (sched 1) st).p_curr := by
  obtain ⟨f, rfl⟩ : ∃ f, fuel = f + 2 := ⟨fuel - 2, by omega⟩
  simp [p_ans, SPMVSubWorker, subworkerLoop]

/-- C7: SPMV identity fixed point.  For every `n ≥ 1`, on the graph with
exactly the self-loops `i → i` of weight `1` (visited in any order), starting
from the drivers' initialisation (`p_curr[i] = 1/n`, `p_next[i] = 0`, written
socket by socket for any sizes that add up to `n`) and running with
`maxIter = 1`, the loop stops and `p_ans[i] = 1/n` for every `i`, which is the
initial `p_curr`. -/
theorem C7_identity_fixed_point (n : Nat) (hn : 1 ≤ n) (sizeArr : List Nat)
    (hsum : sizeArr.sum = n) (mem : List ℚ × List ℚ) (h1 : mem.1.length = n)
    (h2 : mem.2.length = n) (sched : Int → List WghEdge)
    (hsched : ∀ c, (sched c).Perm (identityEdges n)) (output : List Bool) (fuel : Nat)
    (hfuel : 2 ≤ fuel) :
    SPMV_main_init (n : Int) sizeArr mem = (List.replicate n (1 / (n : ℚ)), List.replicate n 0) ∧
    p_ans (SPMVSubWorker (List.replicate n true) n sched 1 fuel
      ⟨(SPMV_main_init (n : Int) sizeArr mem).1, (SPMV_main_init (n : Int) sizeArr mem).2, output⟩) =
      some (SPMV_main_init (n : Int) sizeArr mem).1 ∧
    ∀ i, i < n →
      (p_ans (SPMVSubWorker (List.replicate n true) n sched 1 fuel
        ⟨(SPMV_main_init (n : Int) sizeArr mem).1, (SPMV_main_init (n : Int) sizeArr mem).2,
          output⟩)).map (fun a => a[i]?) = some (some (1 / (n : ℚ))) := by
  have hinit := SPMV_main_init_eq n sizeArr hsum mem h1 h2
  have hv : ∀ e ∈ sched 1, e.s < n ∧ e.d < n := by
    intro e he
    have := (hsched 1).mem_iff.mp he
    simp only [identityEdges, List.mem_map, List.mem_range] at this
    obtain ⟨i, hi, rfl⟩ := this
    exact ⟨hi, hi⟩
  have hrun := SPMVSubWorker_one (List.replicate n true) n sched fuel hfuel
    ⟨(SPMV_main_init (n : Int) sizeArr mem).1, (SPMV_main_init (n : Int) sizeArr mem).2, output⟩
  have hit := (SPMVSubWorker_iteration_spec n (sched 1) hv
    ⟨(SPMV_main_init (n : Int) sizeArr mem).1, (SPMV_main_init (n : Int) sizeArr mem).2, output⟩
    (by rw [hinit]; simp) (by rw [hinit])).1
  rw [matVec_perm n _ _ (hsched 1), matVec_identityEdges n _ (by rw [hinit]; simp)] at hit
  rw [hit] at hrun
  refine ⟨hinit, hrun, ?_⟩
  intro i hi
  have _ := hn
  rw [hrun]
  simp [hinit, List.getElem?_replicate, hi]

/-- C7 at `n = 2` with one socket of size `2`: both cells stay `1/2`. -/
theorem C7_identity_fixed_point_witness :
    1 ≤ 2 ∧ ([2] : List Nat).sum = 2 ∧
    p_ans (SPMVSubWorker (List.replicate 2 true) 2 (fun _ => identityEdges 2) 1 2
      ⟨(SPMV_main_init (2 : Nat) [2] ([7, 7], [7, 7])).1,
       (SPMV_main_init (2 : Nat) [2] ([7, 7], [7, 7])).2, []⟩) =
      some (SPMV_main_init (2 : Nat) [2] ([7, 7], [7, 7])).1 :=
  ⟨by decide, by decide,
   (C7_identity_fixed_point 2 (by decide) [2] (by decide) ([7, 7], [7, 7]) rfl rfl
      (fun _ => identityEdges 2) (fun _ => List.Perm.refl _) [] 2 (by decide)).2.1⟩

/-! ## Double buffering over several SPMV iterations -/

theorem matVec_iterate_length (n : Nat) (edges : List WghEdge) (p0 : List ℚ)
    (hp : p0.length = n) (m : Nat) : ((matVec n edges)^[m] p0).length = n := by
  cases m with
  | zero => simpa using hp
  | succ m => rw [Function.iterate_succ_apply']; exact matVec_length _ _ _

/-- The loop invariant of the SPMV subworker: when the guard is reached with
`currIter = c`, `p_curr` is the `c`-fold product and `p_next` is zero. -/
theorem SPMVSubWorker_iteration_invariant (n : Nat) (edges : List WghEdge)
    (sched : Int → List WghEdge) (hsched : ∀ c, (sched c).Perm edges)
    (hv : ∀ e ∈ edges, e.s < n ∧ e.d < n) (p0 : List ℚ) (hp : p0.length = n)
    (c : Int) (s : SPMV_State)
    (hinv : 0 ≤ c ∧ s.p_curr = (matVec n edges)^[c.toNat] p0 ∧ s.p_next = List.replicate n 0) :
    0 ≤ c + 1 ∧
    (SPMVSubWorker_iteration (List.replicate n true) n (sched (c + 1)) s).p_curr =
      (matVec n edges)^[(c + 1).toNat] p0 ∧
    (SPMVSubWorker_iteration (List.replicate n true) n (sched (c + 1)) s).p_next =
      List.replicate n 0 := by
  obtain ⟨hc, h1, h2⟩ := hinv
  have hv2 : ∀ e ∈ sched (c + 1), e.s < n ∧ e.d < n :=
    fun e he => hv e ((hsched (c + 1)).mem_iff.mp he)
  obtain ⟨e1, e2⟩ := SPMVSubWorker_iteration_spec n (sched (c + 1)) hv2 s
    (by rw [h1]; exact matVec_iterate_length n edges p0 hp _) h2
  have ht : (c + 1).toNat = c.toNat + 1 := by omega
  refine ⟨by omega, ?_, e2⟩
  rw [e1, matVec_perm n edges _ (hsched (c + 1)), h1, ht, Function.iterate_succ_apply']

/-- C8: double buffering across SPMV iterations.  For every `k ≥ 1`, the loop
with `maxIter = k` started with a zero `p_next` stops, and `p_ans` is the
`k`-fold matrix-vector product of the initial `p_curr`.  The body is entered
`k` times; at entry number `j` the guard saw `currIter = j`, `p_next` is zero
and `p_curr` is the `j`-fold product; and the `p_curr` seen at the next entry is
exactly the `p_next` that the push-forward pass of this iteration wrote.  On
the chain `0→1→2→3` with input `[1,0,0,0]` the results after 1, 2, 3
iterations are `[0,1,0,0]`, `[0,0,1,0]`, `[0,0,0,1]`. -/
theorem C8_double_buffering :
    (∀ (n : Nat) (edges : List WghEdge) (sched : Int → List WghEdge) (p0 : List ℚ)
      (output : List Bool) (k fuel : Nat),
      1 ≤ k → k < fuel → (∀ c, (sched c).Perm edges) → (∀ e ∈ edges, e.s < n ∧ e.d < n) →
      p0.length = n →
      p_ans (SPMVSubWorker (List.replicate n true) n sched (k : Int) fuel
        ⟨p0, List.replicate n 0, output⟩) = some ((matVec n edges)^[k] p0) ∧
      (SPMVSubWorker (List.replicate n true) n sched (k : Int) fuel
        ⟨p0, List.replicate n 0, output⟩).state.p_next = List.replicate n 0 ∧
      (SPMVSubWorker (List.replicate n true) n sched (k : Int) fuel
        ⟨p0, List.replicate n 0, output⟩).entered.length = k ∧
      (∀ (j : Nat) (e : Int × SPMV_State),
        (SPMVSubWorker (List.replicate n true) n sched (k : Int) fuel
          ⟨p0, List.replicate n 0, output⟩).entered[j]? = some e →
        e.1 = (j : Int) ∧ e.2.p_curr = (matVec n edges)^[j] p0 ∧
        e.2.p_next = List.replicate n 0) ∧
      (∀ (j : Nat) (e e2 : Int × SPMV_State),
        (SPMVSubWorker (List.replicate n true) n sched (k : Int) fuel
          ⟨p0, List.replicate n 0, output⟩).entered[j]? = some e →
        (SPMVSubWorker (List.replicate n true) n sched (k : Int) fuel
          ⟨p0, List.replicate n 0, output⟩).entered[j + 1]? = some e2 →
        e2.2.p_curr =
          (edgeMapDenseForward (sched (e.1 + 1)) (List.replicate n true)
            { p_curr := e.2.p_curr, p_next := e.2.p_next }
            (forLoop (fun i o => o.set i false) n 0 e.2.output)).1.p_next)) ∧
    (p_ans (SPMVSubWorker [true, true, true, true] 4 (fun _ => [⟨0, 1, 1⟩, ⟨1, 2, 1⟩, ⟨2, 3, 1⟩])
        1 4 ⟨[1, 0, 0, 0], [0, 0, 0, 0], [false, false, false, false]⟩) = some [0, 1, 0, 0] ∧
     p_ans (SPMVSubWorker [true, true, true, true] 4 (fun _ => [⟨0, 1, 1⟩, ⟨1, 2, 1⟩, ⟨2, 3, 1⟩])
        2 4 ⟨[1, 0, 0, 0], [0, 0, 0, 0], [false, false, false, false]⟩) = some [0, 0, 1, 0] ∧
     p_ans (SPMVSubWorker [true, true, true, true] 4 (fun _ => [⟨0, 1, 1⟩, ⟨1, 2, 1⟩, ⟨2, 3, 1⟩])
        3 4 ⟨[1, 0, 0, 0], [0, 0, 0, 0], [false, false, false, false]⟩) = some [0, 0, 0, 1]) := by
  constructor
  · intro n edges sched p0 output k fuel hk hfuel hsched hv hp
    obtain ⟨h1, _, ⟨_, h3, h4⟩, new, h5, h6, h7⟩ :=
      subworkerLoop_bounded (k : Int)
        (fun c s => SPMVSubWorker_iteration (List.replicate n true) n (sched c) s)
        (fun c s => 0 ≤ c ∧ s.p_curr = (matVec n edges)^[c.toNat] p0 ∧
          s.p_next = List.replicate n 0)
        (fun c s hinv _ => SPMVSubWorker_iteration_invariant n edges sched hsched hv p0 hp c s hinv)
        (by omega) k fuel 0 ⟨p0, List.replicate n 0, output⟩ [] (by simp) hfuel
        ⟨le_refl 0, by simp, rfl⟩
    rw [List.nil_append] at h5
    have hentry : ∀ (j : Nat) (e : Int × SPMV_State), new[j]? = some e →
        e.1 = (j : Int) ∧ e.2.p_curr = (matVec n edges)^[j] p0 ∧
        e.2.p_next = List.replicate n 0 := by
      intro j e hj
      obtain ⟨a, _, _, b, c⟩ := h7 j e hj
      have ha : e.1 = (j : Int) := by simpa using a
      rw [ha] at b
      exact ⟨ha, by simpa using b, c⟩
    refine ⟨?_, h4, ?_, ?_, ?_⟩
    · simp only [p_ans, SPMVSubWorker, h1, if_true]
      rw [h3]
      simp
    · simp only [SPMVSubWorker, h5, h6]
    · intro j e hj
      simp only [SPMVSubWorker, h5] at hj
      exact hentry j e hj
    · intro j e e2 hj hj2
      simp only [SPMVSubWorker, h5] at hj hj2
      obtain ⟨a1, a2, a3⟩ := hentry j e hj
      obtain ⟨_, b2, _⟩ := hentry (j + 1) e2 hj2
      have hinv := SPMVSubWorker_iteration_invariant n edges sched hsched hv p0 hp (j : Int) e.2
        ⟨by omega, by simpa using a2, a3⟩
      have ht : ((j : Int) + 1).toNat = j + 1 := by omega
      rw [ht] at hinv
      rw [b2, ← hinv.2.1, a1]
      rfl
  · refine ⟨?_, ?_, ?_⟩ <;>
    simp [p_ans, SPMVSubWorker, subworkerLoop, SPMVSubWorker_iteration, edgeMapDenseForward,
      edgeMapDenseForward_visit, SPMV_F.updateAtomic, writeAdd, vertexMap, forLoop,
      SPMV_Vertex_Reset]

/-- C8 on the chain `0→1→2→3` with `k = 2` and fuel `3`: the hypotheses hold,
the two-fold product of `[1,0,0,0]` is `[0,0,1,0]`, and that is `p_ans`. -/
theorem C8_double_buffering_witness :
    1 ≤ 2 ∧ 2 < 3 ∧ (∀ e ∈ ([⟨0, 1, 1⟩, ⟨1, 2, 1⟩, ⟨2, 3, 1⟩] : List WghEdge), e.s < 4 ∧ e.d < 4) ∧
    ([1, 0, 0, 0] : List ℚ).length = 4 ∧
    p_ans (SPMVSubWorker (List.replicate 4 true) 4 (fun _ => [⟨0, 1, 1⟩, ⟨1, 2, 1⟩, ⟨2, 3, 1⟩])
        ((2 : Nat) : Int) 3 ⟨[1, 0, 0, 0], List.replicate 4 0, []⟩) =
      some ((matVec 4 [⟨0, 1, 1⟩, ⟨1, 2, 1⟩, ⟨2, 3, 1⟩])^[2] [1, 0, 0, 0]) :=
  ⟨by decide, by decide, by decide, by decide,
   (C8_double_buffering.1 4 [⟨0, 1, 1⟩, ⟨1, 2, 1⟩, ⟨2, 3, 1⟩]
      (fun _ => [⟨0, 1, 1⟩, ⟨1, 2, 1⟩, ⟨2, 3, 1⟩]) [1, 0, 0, 0] [] 2 3 (by decide) (by decide)
      (fun _ => List.Perm.refl _) (by decide) (by decide)).1⟩

/-! ## The reset functor of belief propagation -/

/-- C9 (evaluation of the code): on an arena of three vertices whose products
are all `[1/2, 1/2]`, `BP_Vertex_Reset` called for vertex `2` leaves vertex `2`
at `[1/2, 1/2]`; it writes slot `0` of vertex `0` and slot `1` of vertex `1`
instead, and a whole `vertexMap` pass over the three vertices does the same. -/
theorem C9_BP_Vertex_Reset_misses_vertex :
    BP_Vertex_Reset [⟨[1 / 2, 1 / 2]⟩, ⟨[1 / 2, 1 / 2]⟩, ⟨[1 / 2, 1 / 2]⟩] 2 =
      (true, [⟨[1, 1 / 2]⟩, ⟨[1 / 2, 1]⟩, ⟨[1 / 2, 1 / 2]⟩]) ∧
    vertexMap [true, true, true] BP_Vertex_Reset 3
        [⟨[1 / 2, 1 / 2]⟩, ⟨[1 / 2, 1 / 2]⟩, ⟨[1 / 2, 1 / 2]⟩] =
      [⟨[1, 1 / 2]⟩, ⟨[1 / 2, 1]⟩, ⟨[1 / 2, 1 / 2]⟩] := by
  constructor <;> simp [BP_Vertex_Reset, vertexMap, forLoop, NSTATES]

/-! ## Edge offsets of `BeliefPropagationThread` -/

theorem sum_take_mono (l : List Int) (hnn : ∀ x ∈ l, 0 ≤ x) (i d : Nat) :
    (l.take i).sum ≤ (l.take (i + d)).sum := by
  induction d with
  | zero => simp
  | succ d ih =>
    have h : i + (d + 1) = (i + d) + 1 := by omega
    rw [h, sum_take_succ_getD, List.getD_eq_getElem?_getD]
    cases hc : l[i + d]? with
    | none => simpa using ih
    | some x =>
      have := hnn x (List.mem_iff_getElem?.mpr ⟨_, hc⟩)
      simp only [Option.getD_some]
      omega

/-- A value in the range of `int` is stored unchanged. -/
theorem wrapInt32_of_range (x : Int) (h0 : -2147483648 ≤ x) (h1 : x ≤ 2147483647) :
    wrapInt32 x = x := by
  unfold wrapInt32
  omega

/-- After `k` rounds of the offsets loop the cells `0..k` hold the running
sums of the degrees, provided the sum of the first `k` degrees fits `intT`. -/
theorem localOffsets_loop (fakeDegrees init : List Int) (hnn : ∀ x ∈ fakeDegrees, 0 ≤ x)
    (hinit : 1 ≤ init.length) (k : Nat) (hk : k + 1 ≤ init.length)
    (hfit : (fakeDegrees.take k).sum ≤ 2147483647) :
    (forLoop (fun i a => a.set i (wrapInt32 (a.getD (i - 1) 0 + fakeDegrees.getD (i - 1) 0)))
      k 1 (init.set 0 0)).length = init.length ∧
    ∀ j, j ≤ k →
      (forLoop (fun i a => a.set i (wrapInt32 (a.getD (i - 1) 0 + fakeDegrees.getD (i - 1) 0)))
        k 1 (init.set 0 0))[j]? = some ((fakeDegrees.take j).sum) := by
  induction k with
  | zero =>
    refine ⟨by simp [forLoop], ?_⟩
    intro j hj
    have hj0 : j = 0 := by omega
    subst hj0
    have h0 : 0 < init.length := by omega
    simp only [forLoop, List.getElem?_set, h0, if_true, List.take_zero, List.sum_nil]
  | succ k ih =>
    have hmono := sum_take_mono fakeDegrees hnn k 1
    obtain ⟨h1, h2⟩ := ih (by omega) (by omega)
    rw [forLoop_succ_right]
    generalize forLoop
      (fun i a => a.set i (wrapInt32 (a.getD (i - 1) 0 + fakeDegrees.getD (i - 1) 0))) k 1
      (init.set 0 0) = a at h1 h2 ⊢
    have hk1 : 1 + k - 1 = k := by omega
    simp only [hk1]
    refine ⟨by simp [h1], ?_⟩
    intro j hj
    rw [List.getElem?_set]
    by_cases hjk : 1 + k = j
    · subst hjk
      have hak : a.getD k 0 = (fakeDegrees.take k).sum := by
        rw [List.getD_eq_getElem?_getD, h2 k (le_refl k)]
        rfl
      have hlt : 1 + k < a.length := by omega
      have hs : 1 + k = k + 1 := by omega
      have hpos := sum_take_nonneg fakeDegrees hnn (k + 1)
      simp only [hlt, if_true, hak]
      rw [hs, ← sum_take_succ_getD, wrapInt32_of_range _ (by omega) hfit]
    · rw [if_neg hjk]
      exact h2 j (by omega)

/-- C10, as stated, fails when the running sum leaves the range of `intT`: for
the non-negative fake degrees `[2147483647, 1, 5]` the offsets built in
`BeliefPropagationThread` are `[0, 2147483647, -2147483648]`, so
`localOffsets[2]` is not the sum `2147483648` of the first two degrees and the
array is not non-decreasing. -/
theorem C10_localOffsets_overflow_counterexample :
    BeliefPropagationThread_localOffsets 3 [2147483647, 1, 5] [0, 0, 0] =
      [0, 2147483647, -2147483648] ∧
    (∀ x ∈ ([2147483647, 1, 5] : List Int), 0 ≤ x) ∧
    (([2147483647, 1, 5] : List Int).take 2).sum = 2147483648 ∧
    (BeliefPropagationThread_localOffsets 3 [2147483647, 1, 5] [0, 0, 0])[2]? ≠
      some ((([2147483647, 1, 5] : List Int).take 2).sum) ∧
    ¬ ((BeliefPropagationThread_localOffsets 3 [2147483647, 1, 5] [0, 0, 0]).getD 1 0 ≤
        (BeliefPropagationThread_localOffsets 3 [2147483647, 1, 5] [0, 0, 0]).getD 2 0) := by
  decide

/-- C10, amended: for every local graph with `n_s ≥ 1` vertices and
non-negative fake degrees whose sum over the first `n_s - 1` vertices fits
`intT` (is at most `2^31 - 1`), the offsets built in `BeliefPropagationThread`
satisfy `localOffsets[i] = Σ_{j<i} fakeDegree[j]` for every `0 ≤ i < n_s`; in
particular `localOffsets[0] = 0` and the array is non-decreasing. -/
theorem C10_localOffsets_running_sums (n : Nat) (hn : 1 ≤ n) (fakeDegrees : List Int)
    (hlen : fakeDegrees.length = n) (hnn : ∀ x ∈ fakeDegrees, 0 ≤ x)
    (hfit : (fakeDegrees.take (n - 1)).sum ≤ 2147483647) (init : List Int)
    (hinit : init.length = n) :
    (BeliefPropagationThread_localOffsets n fakeDegrees init).length = n ∧
    (∀ i, i < n →
      (BeliefPropagationThread_localOffsets n fakeDegrees init)[i]? =
        some ((fakeDegrees.take i).sum)) ∧
    (BeliefPropagationThread_localOffsets n fakeDegrees init)[0]? = some 0 ∧
    (∀ i j, i ≤ j → j < n →
      (BeliefPropagationThread_localOffsets n fakeDegrees init).getD i 0 ≤
        (BeliefPropagationThread_localOffsets n fakeDegrees init).getD j 0) := by
  obtain ⟨h1, h2⟩ := localOffsets_loop fakeDegrees init hnn (by omega) (n - 1) (by omega) hfit
  have _ := hlen
  rw [hinit] at h1
  unfold BeliefPropagationThread_localOffsets
  have hget : ∀ i, i < n →
      (forLoop (fun i a => a.set i (wrapInt32 (a.getD (i - 1) 0 + fakeDegrees.getD (i - 1) 0)))
        (n - 1) 1 (init.set 0 0))[i]? = some ((fakeDegrees.take i).sum) :=
    fun i hi => h2 i (by omega)
  refine ⟨h1, hget, by simpa using hget 0 (by omega), ?_⟩
  intro i j hij hj
  rw [List.getD_eq_getElem?_getD, List.getD_eq_getElem?_getD, hget i (by omega), hget j hj]
  simp only [Option.getD_some]
  obtain ⟨d, rfl⟩ : ∃ d, j = i + d := ⟨j - i, by omega⟩
  exact sum_take_mono fakeDegrees hnn i d

/-- C10 (amended) on three vertices with fake degrees `[2, 0, 3]`: the degrees
are non-negative, the first two add up to `2`, and the offsets are
`[0, 2, 2]`. -/
theorem C10_localOffsets_running_sums_witness :
    1 ≤ 3 ∧ (∀ x ∈ ([2, 0, 3] : List Int), 0 ≤ x) ∧
    (([2, 0, 3] : List Int).take (3 - 1)).sum ≤ 2147483647 ∧
    BeliefPropagationThread_localOffsets 3 [2, 0, 3] [9, 9, 9] = [0, 2, 2] ∧
    (BeliefPropagationThread_localOffsets 3 [2, 0, 3] [9, 9, 9])[2]? =
      some ((([2, 0, 3] : List Int).take 2).sum) :=
  ⟨by decide, by decide, by decide, by decide,
   (C10_localOffsets_running_sums 3 (by decide) [2, 0, 3] rfl (by decide) (by decide)
      [9, 9, 9] rfl).2.1 2 (by decide)⟩

/-! ## Reading the command line -/

theorem digitChar_facts : ∀ d, d < 10 →
    isspace (Nat.digitChar d) = false ∧ Nat.digitChar d ≠ '-' ∧ Nat.digitChar d ≠ '+' ∧
    (Nat.digitChar d).isDigit = true ∧ ((Nat.digitChar d).toNat : Int) - 48 = d := by
  decide

/-- On a run of decimal digit characters `atoi_digits` is Horner evaluation. -/
theorem atoi_digits_map (ds : List Nat) (hds : ∀ d ∈ ds, d < 10) (rest : List Char) (a : Int) :
    atoi_digits (ds.map Nat.digitChar ++ rest) a =
      atoi_digits rest (ds.foldl (fun (x : Int) (d : Nat) => x * 10 + (d : Int)) a) := by
  induction ds generalizing a with
  | nil => rfl
  | cons d ds ih =>
    obtain ⟨_, _, _, h4, h5⟩ := digitChar_facts d (hds d (List.mem_cons_self d ds))
    simp only [List.map_cons, List.cons_append, atoi_digits, h4, if_true, h5, List.foldl_cons]
    exact ih (fun x hx => hds x (List.mem_cons_of_mem d hx)) _

/-- The decimal digits produced by `Nat.toDigitsCore`, most significant first. -/
theorem toDigitsCore_digits (fuel : Nat) :
    ∀ (n : Nat) (acc : List Char), n < fuel →
      ∃ ds : List Nat, ds ≠ [] ∧ (∀ d ∈ ds, d < 10) ∧
        Nat.toDigitsCore 10 fuel n acc = ds.map Nat.digitChar ++ acc ∧
        ds.foldl (fun (x : Int) (d : Nat) => x * 10 + (d : Int)) 0 = (n : Int) := by
  induction fuel with
  | zero => intro n acc h; omega
  | succ fuel ih =>
    intro n acc h
    by_cases h0 : n / 10 = 0
    · refine ⟨[n % 10], by simp, ?_, ?_, ?_⟩
      · intro d hd
        simp only [List.mem_singleton] at hd
        omega
      · rw [Nat.toDigitsCore]
        simp only [if_pos h0]
        rfl
      · simp only [List.foldl_cons, List.foldl_nil]
        omega
    · obtain ⟨ds, h1, h2, h3, h4⟩ := ih (n / 10) (Nat.digitChar (n % 10) :: acc) (by omega)
      refine ⟨ds ++ [n % 10], by simp, ?_, ?_, ?_⟩
      · intro d hd
        simp only [List.mem_append, List.mem_singleton] at hd
        rcases hd with hd | hd
        · exact h2 d hd
        · omega
      · rw [Nat.toDigitsCore]
        simp only [if_neg h0, h3]
        simp
      · simp only [List.foldl_append, List.foldl_cons, List.foldl_nil, h4]
        omega

/-- Reading back the decimal text of a natural number. -/
theorem atoi_toString_nat (m : Nat) :
    (toString m).toList.dropWhile isspace = (toString m).toList ∧
    (∀ cs, (toString m).toList ≠ '-' :: cs) ∧ (∀ cs, (toString m).toList ≠ '+' :: cs) ∧
    atoi_digits (toString m).toList 0 = (m : Int) := by
  obtain ⟨ds, h1, h2, h3, h4⟩ := toDigitsCore_digits (m + 1) m [] (by omega)
  have hstr : (toString m).toList = ds.map Nat.digitChar := by
    show Nat.toDigitsCore 10 (m + 1) m [] = _
    rw [h3, List.append_nil]
  rw [hstr]
  cases ds with
  | nil => exact absurd rfl h1
  | cons d ds =>
    obtain ⟨f1, f2, f3, _, _⟩ := digitChar_facts d (h2 d (List.mem_cons_self d ds))
    refine ⟨?_, ?_, ?_, ?_⟩
    · simp [List.dropWhile, f1]
    · intro cs hc
      simp only [List.map_cons, List.cons.injEq] at hc
      exact f2 hc.1
    · intro cs hc
      simp only [List.map_cons, List.cons.injEq] at hc
      exact f3 hc.1
    · have := atoi_digits_map (d :: ds) h2 [] 0
      rw [List.append_nil] at this
      rw [this, h4]
      rfl

/-- The decimal text of every integer is read back exactly. -/
theorem decimalValue_toString (k : Int) : decimalValue (toString k) = k := by
  cases k with
  | ofNat m =>
    obtain ⟨h1, h2, h3, h4⟩ := atoi_toString_nat m
    have hs : toString (Int.ofNat m) = toString m := rfl
    rw [hs]
    unfold decimalValue
    rw [h1]
    split
    · rename_i cs heq; exact absurd heq (h2 cs)
    · rename_i cs heq; exact absurd heq (h3 cs)
    · simpa using h4
  | negSucc m =>
    obtain ⟨_, _, _, h4⟩ := atoi_toString_nat (m + 1)
    have hs : (toString (Int.negSucc m)).toList = '-' :: (toString (m + 1)).toList := rfl
    unfold decimalValue
    rw [hs]
    have hsp : isspace '-' = false := by decide
    simp only [List.dropWhile, hsp]
    rw [h4]
    rfl

/-- The conversion `atoi` reads back the decimal text of every integer in the
range of `int`. -/
theorem atoi_toString (k : Int) (h0 : -2147483648 ≤ k) (h1 : k ≤ 2147483647) :
    atoi (toString k) = k := by
  have hc : clampLong k = k := by
    unfold clampLong
    rw [if_neg (by omega), if_neg (by omega)]
  unfold atoi
  rw [decimalValue_toString, hc, wrapInt32_of_range k h0 h1]

/-- Outside the range of `int` the conversion does not return the number
written: `99999999999` is read as `1215752191`. -/
theorem atoi_out_of_range : atoi "99999999999" = 1215752191 := by
  decide

/-- C5, as stated, fails when an optional argument is left out before one that
is given: `prog graph -result` is read as `maxIter = atoi("-result") = 0` with
`needResult = false`, and `prog graph 10 -s` leaves `symmetric = false`, in
both drivers. -/
theorem C5_cli_counterexample :
    SPMV.parallel_main (cliArgv "prog" "graph" none true false false) =
      { iFile := some "graph", maxIter := 0, needResult := false, symmetric := false,
        binary := false } ∧
    BP.parallel_main (cliArgv "prog" "graph" none true false false) =
      { iFile := some "graph", maxIter := 0, needResult := false, symmetric := false,
        binary := false } ∧
    SPMV.parallel_main (cliArgv "prog" "graph" (some 10) false true false) =
      { iFile := some "graph", maxIter := 10, needResult := false, symmetric := false,
        binary := false } ∧
    BP.parallel_main (cliArgv "prog" "graph" (some 10) false true false) =
      { iFile := some "graph", maxIter := 10, needResult := false, symmetric := false,
        binary := false } := by
  decide

/-- C5, amended: the arguments are read by position.  For every argument vector
`program input-file [maxIter [-result [-s [-b]]]]`, where an optional argument
is given only if all optional arguments before it are given and the integer
lies in the range of `int`, `parallel_main` (in both drivers) sets `maxIter` to
the given integer, or `-1` when it is omitted, and sets `needResult`,
`symmetric`, `binary` to true exactly when `-result`, `-s`, `-b` are
present. -/
theorem C5_cli_positional (program inputFile : String) (maxIter : Option Int)
    (result s b : Bool) (h1 : result = true → maxIter.isSome = true)
    (h2 : s = true → result = true) (h3 : b = true → s = true)
    (hr : ∀ k, maxIter = some k → -2147483648 ≤ k ∧ k ≤ 2147483647) :
    SPMV.parallel_main (cliArgv program inputFile maxIter result s b) =
      { iFile := some inputFile, maxIter := maxIter.getD (-1), needResult := result,
        symmetric := s, binary := b } ∧
    BP.parallel_main (cliArgv program inputFile maxIter result s b) =
      { iFile := some inputFile, maxIter := maxIter.getD (-1), needResult := result,
        symmetric := s, binary := b } := by
  cases maxIter with
  | none =>
    cases result <;> cases s <;> cases b <;>
      first
        | (simp at h1 h2 h3; done)
        | simp [cliArgv, SPMV.parallel_main, BP.parallel_main]
  | some k =>
    have ha := atoi_toString k (hr k rfl).1 (hr k rfl).2
    cases result <;> cases s <;> cases b <;>
      simp at h1 h2 h3 <;>
      simp [cliArgv, SPMV.parallel_main, BP.parallel_main, ha]

/-- C5 (amended) at `prog graph 10 -result -s`; `10` lies in the range of
`int`. -/
theorem C5_cli_positional_witness :
    (-2147483648 : Int) ≤ 10 ∧ (10 : Int) ≤ 2147483647 ∧
    SPMV.parallel_main ["prog", "graph", "10", "-result", "-s"] =
      { iFile := some "graph", maxIter := 10, needResult := true, symmetric := true,
        binary := false } ∧
    SPMV.parallel_main (cliArgv "prog" "graph" (some 10) true true false) =
      { iFile := some "graph", maxIter := (some (10 : Int)).getD (-1), needResult := true,
        symmetric := true, binary := false } :=
  ⟨by decide, by decide, by decide,
   (C5_cli_positional "prog" "graph" (some 10) true true false (fun _ => rfl) (fun _ => rfl)
      (fun h => absurd h (by decide))
      (fun k hk => by cases hk; exact ⟨by decide, by decide⟩)).1⟩

/-! ## Page-aligned socket sizes -/

/-- The locals of the sizing in terms of flooring division. -/
theorem BeliefPropagation_subShardSize_eq (PAGESIZE n S : Int) (hP : 8 ≤ PAGESIZE)
    (hn : 0 ≤ n) (hS : 1 ≤ S) :
    0 < BeliefPropagation_vertPerPage PAGESIZE ∧
    Int.tdiv n S = n / S ∧
    BeliefPropagation_subShardSize PAGESIZE n S =
      n / S / BeliefPropagation_vertPerPage PAGESIZE * BeliefPropagation_vertPerPage PAGESIZE := by
  have hv : BeliefPropagation_vertPerPage PAGESIZE = PAGESIZE / 8 := by
    simp only [BeliefPropagation_vertPerPage, sizeof_double]
    exact Int.tdiv_eq_ediv (by omega) (by omega)
  have hvpos : 0 < PAGESIZE / 8 := by omega
  have hq0 : 0 ≤ n / S := Int.ediv_nonneg hn (by omega)
  refine ⟨by rw [hv]; exact hvpos, Int.tdiv_eq_ediv hn (by omega), ?_⟩
  simp only [BeliefPropagation_subShardSize, hv]
  rw [Int.tdiv_eq_ediv hn (by omega), Int.tdiv_eq_ediv hq0 hvpos.le]

/-- C11: in the equal-and-page-aligned socket sizing of `BeliefPropagation`,
for every `n ≥ 0` and `S ≥ 1`, each of the first `S - 1` entries of `sizeArr`
is `q = subShardSize`, which is the largest multiple of
`vertPerPage = PAGESIZE / sizeof(double)` not exceeding `n / S`; the last entry
is `n - q * (S - 1)`, which is at least `q` and hence non-negative.
`PAGESIZE` holds at least one `double`. -/
theorem C11_page_aligned_sizes (PAGESIZE n S : Int) (init : List Int) (hP : 8 ≤ PAGESIZE)
    (hn : 0 ≤ n) (hS : 1 ≤ S) (hlen : init.length = S.toNat) :
    (∀ i : Nat, (i : Int) < S - 1 →
      (BeliefPropagation_sizeArr PAGESIZE n S init)[i]? =
        some (BeliefPropagation_subShardSize PAGESIZE n S)) ∧
    (BeliefPropagation_sizeArr PAGESIZE n S init)[(S - 1).toNat]? =
      some (n - BeliefPropagation_subShardSize PAGESIZE n S * (S - 1)) ∧
    BeliefPropagation_vertPerPage PAGESIZE ∣ BeliefPropagation_subShardSize PAGESIZE n S ∧
    BeliefPropagation_subShardSize PAGESIZE n S ≤ Int.tdiv n S ∧
    (∀ m : Int, BeliefPropagation_vertPerPage PAGESIZE ∣ m → m ≤ Int.tdiv n S →
      m ≤ BeliefPropagation_subShardSize PAGESIZE n S) ∧
    BeliefPropagation_subShardSize PAGESIZE n S ≤
      n - BeliefPropagation_subShardSize PAGESIZE n S * (S - 1) ∧
    0 ≤ n - BeliefPropagation_subShardSize PAGESIZE n S * (S - 1) := by
  obtain ⟨hvpos, htd, hq⟩ := BeliefPropagation_subShardSize_eq PAGESIZE n S hP hn hS
  obtain ⟨hq0, hq1, _⟩ := BeliefPropagation_subShardSize_bounds PAGESIZE n S hP hn hS
  have hnS : n / S * S ≤ n := Int.ediv_mul_le _ (by omega)
  have hqS : BeliefPropagation_subShardSize PAGESIZE n S * S ≤ n / S * S :=
    mul_le_mul_of_nonneg_right hq1 (by omega)
  have hlast : BeliefPropagation_subShardSize PAGESIZE n S ≤
      n - BeliefPropagation_subShardSize PAGESIZE n S * (S - 1) := by nlinarith
  rw [BeliefPropagation_sizeArr_eq PAGESIZE n S init hS hlen, htd]
  refine ⟨?_, ?_, ?_, hq1, ?_, hlast, by omega⟩
  · intro i hi
    have hi2 : i < S.toNat - 1 := by omega
    rw [List.getElem?_append_left (by simpa using hi2)]
    simp [hi2]
  · have h1 : (S - 1).toNat = S.toNat - 1 := by omega
    rw [h1, List.getElem?_append_right (by simp)]
    simp
  · rw [hq]
    exact Dvd.intro_left _ rfl
  · rintro m ⟨t, rfl⟩ hm
    rw [hq]
    have ht : t ≤ n / S / BeliefPropagation_vertPerPage PAGESIZE :=
      Int.le_ediv_of_mul_le hvpos (by rw [mul_comm]; exact hm)
    rw [mul_comm]
    exact mul_le_mul_of_nonneg_right ht hvpos.le

/-- C11 at `PAGESIZE = 4096`, `n = 2000`, `S = 3`: `vertPerPage = 512`,
`q = 512`, sizes `[512, 512, 976]`. -/
theorem C11_page_aligned_sizes_witness :
    (8 : Int) ≤ 4096 ∧ (0 : Int) ≤ 2000 ∧ (1 : Int) ≤ 3 ∧
    BeliefPropagation_vertPerPage 4096 = 512 ∧
    BeliefPropagation_subShardSize 4096 2000 3 = 512 ∧
    BeliefPropagation_sizeArr 4096 2000 3 [7, 7, 7] = [512, 512, 976] ∧
    BeliefPropagation_subShardSize 4096 2000 3 ≤
      2000 - BeliefPropagation_subShardSize 4096 2000 3 * (3 - 1) :=
  ⟨by decide, by decide, by decide, by decide, by decide, by decide,
   (C11_page_aligned_sizes 4096 2000 3 [7, 7, 7] (by decide) (by decide) (by decide)
      rfl).2.2.2.2.2.1⟩

/-! ## Edge slots and the length of the edge arenas -/

/-- The arenas are allocated with the offset of the last vertex, the sum of the
fake degrees of all vertices before it. -/
theorem BeliefPropagationThread_numLocalEdge_eq (n : Nat) (hn : 1 ≤ n)
    (fakeDegrees init : List Int) (hnn : ∀ x ∈ fakeDegrees, 0 ≤ x)
    (hfit : (fakeDegrees.take (n - 1)).sum ≤ 2147483647) (hinit : init.length = n) :
    BeliefPropagationThread_numLocalEdge n fakeDegrees init = (fakeDegrees.take (n - 1)).sum := by
  obtain ⟨_, h2⟩ := localOffsets_loop fakeDegrees init hnn (by omega) (n - 1) (by omega) hfit
  unfold BeliefPropagationThread_numLocalEdge BeliefPropagationThread_localOffsets
  rw [List.getD_eq_getElem?_getD, h2 (n - 1) (le_refl _)]
  rfl

/-- The slots of every vertex but the last lie inside the arenas, when the
running sums fit `intT`. -/
theorem edge_slots_before_last (n : Nat) (fakeDegrees init : List Int)
    (hnn : ∀ x ∈ fakeDegrees, 0 ≤ x) (hfit : (fakeDegrees.take (n - 1)).sum ≤ 2147483647)
    (hinit : init.length = n) (i : Nat) (hi : i + 1 < n)
    (k : Int) (hk : k < fakeDegrees.getD i 0) :
    (BeliefPropagationThread_localOffsets n fakeDegrees init).getD i 0 + k <
      BeliefPropagationThread_numLocalEdge n fakeDegrees init := by
  obtain ⟨_, h2⟩ := localOffsets_loop fakeDegrees init hnn (by omega) (n - 1) (by omega) hfit
  rw [BeliefPropagationThread_numLocalEdge_eq n (by omega) fakeDegrees init hnn hfit hinit]
  unfold BeliefPropagationThread_localOffsets
  rw [List.getD_eq_getElem?_getD, h2 i (by omega)]
  simp only [Option.getD_some]
  have h3 := sum_take_succ_getD fakeDegrees i
  obtain ⟨d, hd⟩ : ∃ d, n - 1 = (i + 1) + d := ⟨n - 1 - (i + 1), by omega⟩
  have h4 := sum_take_mono fakeDegrees hnn (i + 1) d
  rw [hd]
  omega

/-- C12 (evaluation of the code): on a socket with two vertices of fake degrees
`[1, 2]` the offsets are `[0, 1]` and the edge arenas are allocated with
`numLocalEdge = localOffsets[1] = 1` cells, so edge `0` of vertex `1`, which
lives at index `localOffsets[1] + 0 = 1`, is not below `numLocalEdge`; on a
socket with one vertex of fake degree `3` the arenas have length `0`. -/
theorem C12_last_vertex_slots_outside :
    BeliefPropagationThread_localOffsets 2 [1, 2] [9, 9] = [0, 1] ∧
    BeliefPropagationThread_numLocalEdge 2 [1, 2] [9, 9] = 1 ∧
    (0 : Int) < ([1, 2] : List Int).getD 1 0 ∧
    ¬ ((BeliefPropagationThread_localOffsets 2 [1, 2] [9, 9]).getD 1 0 + 0 <
        BeliefPropagationThread_numLocalEdge 2 [1, 2] [9, 9]) ∧
    BeliefPropagationThread_numLocalEdge 1 [3] [9] = 0 ∧
    ¬ ((BeliefPropagationThread_localOffsets 1 [3] [9]).getD 0 0 + 0 <
        BeliefPropagationThread_numLocalEdge 1 [3] [9]) := by
  decide

/-! ## Atomic and plain kernel updates -/

/-- With nobody else writing the cell, the first compare-and-swap of
`writeMult` succeeds and stores the product. -/
theorem writeMult_succ (fuel : Nat) (a b : ℚ) : writeMult (fuel + 1) a b = some (a * b) := by
  simp [writeMult, CAS]

/-- C13: with no concurrent writer (every compare-and-swap succeeds on its
first attempt) `updateAtomic` is the same state transformer as `update`:
`SPMV_F::updateAtomic` and `SPMV_F::update` return the same value and leave the
same `p_next`, and `BP_F::updateAtomic`, given fuel for one attempt, returns
and leaves the same `edgeD_next` and `vertD_next` (indeed the same arrays
throughout) as `BP_F::update` with the same return value. -/
theorem C13_updateAtomic_is_update (fS : SPMV_F) (f : BP_F) (s d : Nat) (edgeLen edgeIdx : Int)
    (fuel : Nat) (hfuel : 1 ≤ fuel) :
    SPMV_F.updateAtomic fS s d edgeLen = SPMV_F.update fS s d edgeLen ∧
    BP_F.updateAtomic fuel f s d edgeIdx = some (BP_F.update f s d edgeIdx) ∧
    (BP_F.updateAtomic fuel f s d edgeIdx).map (fun r => (r.1, r.2.edgeD_next, r.2.vertD_next)) =
      some ((BP_F.update f s d edgeIdx).1, (BP_F.update f s d edgeIdx).2.edgeD_next,
            (BP_F.update f s d edgeIdx).2.vertD_next) := by
  obtain ⟨k, rfl⟩ : ∃ k, fuel = k + 1 := ⟨fuel - 1, by omega⟩
  have hbp : BP_F.updateAtomic (k + 1) f s d edgeIdx = some (BP_F.update f s d edgeIdx) := by
    simp only [BP_F.updateAtomic, BP_F.update, forLoop, NSTATES, writeMult_succ, Option.map_some',
      Option.some_bind]
  refine ⟨?_, hbp, ?_⟩
  · simp only [SPMV_F.updateAtomic, SPMV_F.update, writeAdd]
  · rw [hbp]
    rfl

/-- C13 on one edge slot with weights `[[1,2],[3,4]]` and unit potentials and
products: both members leave `vertD_next[0].product = [3, 7]`. -/
theorem C13_updateAtomic_is_update_witness :
    1 ≤ 1 ∧
    (BP_F.update ⟨[⟨[[1, 2], [3, 4]]⟩], [⟨[0, 0]⟩], [⟨[5, 5]⟩], [⟨[1, 1]⟩], [⟨[1, 1]⟩],
        [⟨[1, 1]⟩], [0]⟩ 0 0 0).2.vertD_next = [⟨[3, 7]⟩] ∧
    BP_F.updateAtomic 1 ⟨[⟨[[1, 2], [3, 4]]⟩], [⟨[0, 0]⟩], [⟨[5, 5]⟩], [⟨[1, 1]⟩], [⟨[1, 1]⟩],
        [⟨[1, 1]⟩], [0]⟩ 0 0 0 =
      some (BP_F.update ⟨[⟨[[1, 2], [3, 4]]⟩], [⟨[0, 0]⟩], [⟨[5, 5]⟩], [⟨[1, 1]⟩], [⟨[1, 1]⟩],
        [⟨[1, 1]⟩], [0]⟩ 0 0 0) :=
  ⟨by decide,
   by
    simp [BP_F.update, BP_F.message, forLoop, NSTATES, readBelief, writeBelief, readProduct,
      writeProduct, readPotential, readWeight]
    norm_num,
   (C13_updateAtomic_is_update ⟨[1, 2], [0, 0]⟩
      ⟨[⟨[[1, 2], [3, 4]]⟩], [⟨[0, 0]⟩], [⟨[5, 5]⟩], [⟨[1, 1]⟩], [⟨[1, 1]⟩], [⟨[1, 1]⟩], [0]⟩
      0 0 1 0 1 (by decide)).2.1⟩

/-! ## Per-core shards of a socket -/

theorem map_range_getElem? {α : Type} (f : Nat → α) (k i : Nat) (p : α)
    (h : ((List.range k).map f)[i]? = some p) : i < k ∧ p = f i := by
  by_cases hi : i < k
  · rw [List.getElem?_map, List.getElem?_range hi] at h
    simp only [Option.map_some', Option.some.injEq] at h
    exact ⟨hi, h.symm⟩
  · rw [List.getElem?_eq_none (by simpa using hi)] at h
    cases h

/-- A creation loop that hands out consecutive ranges: round `i` receives the
range from the running sum of the sizes before `i` to that sum plus size `i`. -/
theorem rangeLoop_eq {α : Type} (mk : Nat → Int → Int → α) (sz : List Int) (k : Nat) :
    forLoop (fun i (acc : Int × List α) =>
        (acc.1 + sz.getD i 0, acc.2 ++ [mk i acc.1 (acc.1 + sz.getD i 0)])) k 0 (0, []) =
    ((sz.take k).sum,
     (List.range k).map (fun i => mk i (sz.take i).sum ((sz.take (i + 1)).sum))) := by
  induction k with
  | zero => simp [forLoop]
  | succ k ih =>
    rw [forLoop_succ_right, ih]
    simp [List.range_succ, sum_take_succ_getD]

theorem SPMVThread_subworkerArgs_ranges (maxIter tid rangeLow rangeHi C : Int)
    (sz : List Int) :
    (SPMVThread_subworkerArgs maxIter tid rangeLow rangeHi C sz).map
        (fun a => (a.startPos, a.endPos)) =
      (List.range C.toNat).map (fun i => ((sz.take i).sum, (sz.take (i + 1)).sum)) := by
  have h := rangeLoop_eq (fun i lo hi =>
    ({ maxIter := maxIter, tid := tid, subTid := (i : Int), rangeLow := rangeLow,
       rangeHi := rangeHi, startPos := lo, endPos := hi } : SPMV_subworker_arg)) sz C.toNat
  unfold SPMVThread_subworkerArgs
  rw [h]
  simp [Function.comp_def]

theorem BeliefPropagationThread_subworkerArgs_ranges (maxIter tid rangeLow rangeHi C : Int)
    (sz : List Int) :
    (BeliefPropagationThread_subworkerArgs maxIter tid rangeLow rangeHi C sz).map
        (fun a => (a.startPos, a.endPos)) =
      (List.range C.toNat).map (fun i => ((sz.take i).sum, (sz.take (i + 1)).sum)) := by
  have h := rangeLoop_eq (fun i lo hi =>
    ({ maxIter := maxIter, tid := tid, subTid := (i : Int), rangeLow := rangeLow,
       rangeHi := rangeHi, startPos := lo, endPos := hi } : BP_subworker_arg)) sz C.toNat
  unfold BeliefPropagationThread_subworkerArgs
  rw [h]
  simp [Function.comp_def]

/-- Ranges cut out by the running sums of `k` sizes: they start at `0`, each one
is as long as its size and ends where the next begins; when the sizes are
non-negative and add up to `total`, each range lies in `[0, total)`, earlier
ranges end before later ones begin, and every offset below `total` is in
exactly one range. -/
theorem running_ranges_props (sz : List Int) (k : Nat) (hk : sz.length = k) (total : Int)
    (L : List (Int × Int))
    (hL : L = (List.range k).map (fun i => ((sz.take i).sum, (sz.take (i + 1)).sum))) :
    L.length = k ∧
    (∀ p : Int × Int, L[0]? = some p → p.1 = 0) ∧
    (∀ (i : Nat) (p : Int × Int), L[i]? = some p → p.2 = p.1 + sz.getD i 0) ∧
    (∀ (i : Nat) (p q : Int × Int), L[i]? = some p → L[i + 1]? = some q → p.2 = q.1) ∧
    ((∀ x ∈ sz, 0 ≤ x) → sz.sum = total →
      (∀ (i : Nat) (p : Int × Int), L[i]? = some p →
        0 ≤ p.1 ∧ p.1 ≤ p.2 ∧ p.2 ≤ total) ∧
      (∀ (i j : Nat) (p q : Int × Int), i < j → L[i]? = some p → L[j]? = some q →
        p.2 ≤ q.1) ∧
      (∀ v, 0 ≤ v → v < total →
        ∃! i : Nat, ∃ p : Int × Int, L[i]? = some p ∧ p.1 ≤ v ∧ v < p.2)) := by
  subst hL
  refine ⟨by simp, ?_, ?_, ?_, ?_⟩
  · intro p hp
    obtain ⟨_, rfl⟩ := map_range_getElem? _ _ _ _ hp
    simp
  · intro i p hp
    obtain ⟨_, rfl⟩ := map_range_getElem? _ _ _ _ hp
    exact sum_take_succ_getD sz i
  · intro i p q hp hq
    obtain ⟨_, rfl⟩ := map_range_getElem? _ _ _ _ hp
    obtain ⟨_, rfl⟩ := map_range_getElem? _ _ _ _ hq
    rfl
  · intro hnn hsum
    refine ⟨?_, ?_, ?_⟩
    · intro i p hp
      obtain ⟨hi, rfl⟩ := map_range_getElem? _ _ _ _ hp
      refine ⟨sum_take_nonneg sz hnn i, sum_take_mono sz hnn i 1, ?_⟩
      obtain ⟨d, hd⟩ : ∃ d, k = (i + 1) + d := ⟨k - (i + 1), by omega⟩
      have h := sum_take_mono sz hnn (i + 1) d
      rw [← hd, ← hk, List.take_length, hsum] at h
      exact h
    · intro i j p q hij hp hq
      obtain ⟨_, rfl⟩ := map_range_getElem? _ _ _ _ hp
      obtain ⟨_, rfl⟩ := map_range_getElem? _ _ _ _ hq
      obtain ⟨d, hd⟩ : ∃ d, j = (i + 1) + d := ⟨j - (i + 1), by omega⟩
      rw [hd]
      exact sum_take_mono sz hnn (i + 1) d
    · intro v hv0 hv
      obtain ⟨i, ⟨hi0, hi1, hi2⟩, huniq⟩ := running_sum_cover sz hnn v hv0 (by rw [hsum]; exact hv)
      refine ⟨i, ⟨((sz.take i).sum, (sz.take (i + 1)).sum), ?_, hi1, hi2⟩, ?_⟩
      · rw [List.getElem?_map, List.getElem?_range (by rw [← hk]; exact hi0)]
        rfl
      · rintro j ⟨p, hp, hp1, hp2⟩
        obtain ⟨hj, rfl⟩ := map_range_getElem? _ _ _ _ hp
        exact huniq j ⟨by rw [hk]; exact hj, hp1, hp2⟩

/-- C14: the per-core shard ranges `(startPos_i, endPos_i)` that `SPMVThread`
and `BeliefPropagationThread` hand to their `C` subworkers, read as offsets
from the socket's first vertex, are contiguous: `startPos_0 = 0` and
`endPos_i = startPos_i + sizeOfShards[i] = startPos_{i+1}`.  Whenever the
entries of `sizeOfShards` are non-negative and sum to `rangeHi - rangeLow`,
every shard lies in `[0, rangeHi - rangeLow)`, earlier shards end before later
ones begin, and every offset of that range is in exactly one shard. -/
theorem C14_shards_contiguous (maxIter tid rangeLow rangeHi C : Int) (sizeOfShards : List Int)
    (hlen : sizeOfShards.length = C.toNat) (shards : List (Int × Int))
    (hsh : shards = (SPMVThread_subworkerArgs maxIter tid rangeLow rangeHi C sizeOfShards).map
        (fun a => (a.startPos, a.endPos)) ∨
      shards = (BeliefPropagationThread_subworkerArgs maxIter tid rangeLow rangeHi C
        sizeOfShards).map (fun a => (a.startPos, a.endPos))) :
    shards.length = C.toNat ∧
    (∀ p : Int × Int, shards[0]? = some p → p.1 = 0) ∧
    (∀ (i : Nat) (p : Int × Int), shards[i]? = some p → p.2 = p.1 + sizeOfShards.getD i 0) ∧
    (∀ (i : Nat) (p q : Int × Int), shards[i]? = some p → shards[i + 1]? = some q → p.2 = q.1) ∧
    ((∀ x ∈ sizeOfShards, 0 ≤ x) → sizeOfShards.sum = rangeHi - rangeLow →
      (∀ (i : Nat) (p : Int × Int), shards[i]? = some p →
        0 ≤ p.1 ∧ p.1 ≤ p.2 ∧ p.2 ≤ rangeHi - rangeLow) ∧
      (∀ (i j : Nat) (p q : Int × Int), i < j → shards[i]? = some p → shards[j]? = some q →
        p.2 ≤ q.1) ∧
      (∀ v, 0 ≤ v → v < rangeHi - rangeLow →
        ∃! i : Nat, ∃ p : Int × Int, shards[i]? = some p ∧ p.1 ≤ v ∧ v < p.2)) := by
  apply running_ranges_props sizeOfShards C.toNat hlen (rangeHi - rangeLow) shards
  rcases hsh with h | h
  · rw [h, SPMVThread_subworkerArgs_ranges]
  · rw [h, BeliefPropagationThread_subworkerArgs_ranges]

/-- C14 on a socket `[100, 110)` with three cores and shard sizes `[4, 0, 6]`:
the shards are `[0,4)`, `[4,4)`, `[4,10)`. -/
theorem C14_shards_contiguous_witness :
    ([4, 0, 6] : List Int).length = (3 : Int).toNat ∧
    (SPMVThread_subworkerArgs 5 1 100 110 3 [4, 0, 6]).map (fun a => (a.startPos, a.endPos)) =
      [(0, 4), (4, 4), (4, 10)] ∧
    (BeliefPropagationThread_subworkerArgs 5 1 100 110 3 [4, 0, 6]).map
      (fun a => (a.startPos, a.endPos)) = [(0, 4), (4, 4), (4, 10)] ∧
    (∀ x ∈ ([4, 0, 6] : List Int), 0 ≤ x) ∧ ([4, 0, 6] : List Int).sum = 110 - 100 ∧
    ((SPMVThread_subworkerArgs 5 1 100 110 3 [4, 0, 6]).map
      (fun a => (a.startPos, a.endPos))).length = (3 : Int).toNat :=
  ⟨by decide, by decide, by decide, by decide, by decide,
   (C14_shards_contiguous 5 1 100 110 3 [4, 0, 6] (by decide) _ (Or.inl rfl)).1⟩

/-! ## The renumbering is a permutation -/

/-- The two hash structs compute the same functions. -/
theorem BP_hash_eq_SPMV_hash (n S i : Int) :
    (BP_Hash_F.new n S).hashFunc i = (SPMV_Hash_F.new n S).hashFunc i ∧
    (BP_Hash_F.new n S).hashBackFunc i = (SPMV_Hash_F.new n S).hashBackFunc i :=
  ⟨rfl, rfl⟩

/-- The renumbering keeps vertex ids inside `[0, n)`. -/
theorem SPMV_hashFunc_range (n S i : Int) (hn : 0 ≤ n) (hS : 1 ≤ S) (hi0 : 0 ≤ i) (hi : i < n) :
    0 ≤ (SPMV_Hash_F.new n S).hashFunc i ∧ (SPMV_Hash_F.new n S).hashFunc i < n := by
  have hv : Int.tdiv n S = n / S := Int.tdiv_eq_ediv hn (by omega)
  have hle : S * (n / S) ≤ n := Int.mul_ediv_self_le (by omega)
  simp only [SPMV_Hash_F.new, SPMV_Hash_F.hashFunc, hv]
  by_cases hge : i ≥ S * (n / S)
  · rw [if_pos hge]
    exact ⟨hi0, hi⟩
  · have hlt : i < S * (n / S) := not_le.mp hge
    obtain ⟨h0, h1, _⟩ := hash_core S (n / S) i (by omega) hi0 hlt
    rw [if_neg hge]
    simp only [(tdiv_tmod_nonneg i S hi0 (by omega)).1, (tdiv_tmod_nonneg i S hi0 (by omega)).2]
    exact ⟨h0, by omega⟩

/-- The inverse renumbering keeps ids inside `[0, n)` and is undone by
`hashFunc`. -/
theorem SPMV_hashBack_range (n S j : Int) (hn : 0 ≤ n) (hS : 1 ≤ S) (hj0 : 0 ≤ j) (hj : j < n) :
    0 ≤ (SPMV_Hash_F.new n S).hashBackFunc j ∧ (SPMV_Hash_F.new n S).hashBackFunc j < n ∧
    (SPMV_Hash_F.new n S).hashFunc ((SPMV_Hash_F.new n S).hashBackFunc j) = j := by
  have hv : Int.tdiv n S = n / S := Int.tdiv_eq_ediv hn (by omega)
  have hv0 : 0 ≤ n / S := Int.ediv_nonneg hn (by omega)
  have hle : S * (n / S) ≤ n := Int.mul_ediv_self_le (by omega)
  simp only [SPMV_Hash_F.new, SPMV_Hash_F.hashFunc, SPMV_Hash_F.hashBackFunc, hv]
  by_cases hge : j ≥ S * (n / S)
  · simp only [if_pos hge]
    exact ⟨hj0, hj, trivial⟩
  · have hlt : j < S * (n / S) := not_le.mp hge
    have hvpos : 0 < n / S := by
      by_contra hneg
      have h0 : n / S = 0 := by omega
      rw [h0] at hlt
      omega
    obtain ⟨h0, h1, h2⟩ := hash_core (n / S) S j hvpos hj0 (by rw [mul_comm]; exact hlt)
    rw [if_neg hge]
    simp only [(tdiv_tmod_nonneg j (n / S) hj0 hv0).1, (tdiv_tmod_nonneg j (n / S) hj0 hv0).2]
    have hcomm : j / (n / S) + j % (n / S) * S = j % (n / S) * S + j / (n / S) := by ring
    rw [hcomm]
    have h1b : j % (n / S) * S + j / (n / S) < S * (n / S) := by
      rw [mul_comm S (n / S)]; exact h1
    rw [if_neg (not_le.mpr h1b)]
    simp only [(tdiv_tmod_nonneg _ S h0 (by omega)).1, (tdiv_tmod_nonneg _ S h0 (by omega)).2]
    refine ⟨h0, by omega, ?_⟩
    rw [add_comm]
    exact h2

/-- A loop that appends one entry per round collects them in order. -/
theorem forLoop_collect {α : Type} (g : Nat → α) (k : Nat) :
    forLoop (fun i (out : List α) => out ++ [g i]) k 0 [] = (List.range k).map g := by
  induction k with
  | zero => simp [forLoop]
  | succ k ih =>
    rw [forLoop_succ_right, ih]
    simp [List.range_succ]

/-- The arena indices `hashFunc(0), …, hashFunc(n-1)` are the indices
`0, …, n-1` in another order. -/
theorem SPMV_hashFunc_perm (n S : Int) (hn : 0 ≤ n) (hS : 1 ≤ S) :
    ((List.range n.toNat).map (fun (i : Nat) => (SPMV_Hash_F.new n S).hashFunc (i : Int))).Perm
      ((List.range n.toNat).map (fun (i : Nat) => (i : Int))) := by
  apply List.Subperm.perm_of_length_le
  · apply List.subperm_of_subset
    · apply List.Nodup.map_on _ (List.nodup_range _)
      intro x hx y hy hxy
      rw [List.mem_range] at hx hy
      have hx1 := SPMV_hash_roundtrip n S (x : Int) hn hS (by omega)
      have hy1 := SPMV_hash_roundtrip n S (y : Int) hn hS (by omega)
      rw [hxy, hy1] at hx1
      omega
    · intro a ha
      simp only [List.mem_map, List.mem_range] at ha ⊢
      obtain ⟨i, hi, rfl⟩ := ha
      obtain ⟨h0, h1⟩ := SPMV_hashFunc_range n S (i : Int) hn hS (by omega) (by omega)
      exact ⟨((SPMV_Hash_F.new n S).hashFunc (i : Int)).toNat, by omega, by omega⟩
  · simp

/-- C15: the renumbering used for the result dump is a permutation of the
vertex ids.  For every `n ≥ 0` and `shardNum ≥ 1`, `hashFunc` maps `[0, n)`
into `[0, n)` and `hashFunc (hashBackFunc j) = j` for every `j` in `[0, n)`
(for `SPMV_Hash_F` and for `BP_Hash_F`), so `hashFunc` is injective and onto
on `[0, n)`; the dump loop of `SPMV_main` over `i` in `[0, n)` reads
`p_ans[hashFunc(i)]` in bounds every time, and the indices it reads are the
arena indices `0, …, n-1`, each exactly once. -/
theorem C15_hash_is_permutation (n shardNum : Int) (hn : 0 ≤ n) (hS : 1 ≤ shardNum)
    (p_ans : List ℚ) (hlen : p_ans.length = n.toNat) :
    (∀ i, 0 ≤ i → i < n →
      0 ≤ (SPMV_Hash_F.new n shardNum).hashFunc i ∧ (SPMV_Hash_F.new n shardNum).hashFunc i < n ∧
      0 ≤ (BP_Hash_F.new n shardNum).hashFunc i ∧ (BP_Hash_F.new n shardNum).hashFunc i < n) ∧
    (∀ j, 0 ≤ j → j < n →
      (SPMV_Hash_F.new n shardNum).hashFunc ((SPMV_Hash_F.new n shardNum).hashBackFunc j) = j ∧
      (BP_Hash_F.new n shardNum).hashFunc ((BP_Hash_F.new n shardNum).hashBackFunc j) = j) ∧
    (∀ i i2, 0 ≤ i → i < n → 0 ≤ i2 → i2 < n →
      (SPMV_Hash_F.new n shardNum).hashFunc i = (SPMV_Hash_F.new n shardNum).hashFunc i2 →
      i = i2) ∧
    (∀ j, 0 ≤ j → j < n →
      ∃ i, 0 ≤ i ∧ i < n ∧ (SPMV_Hash_F.new n shardNum).hashFunc i = j) ∧
    (SPMV_main_dump n shardNum p_ans).map (fun e => e.1) =
      (List.range n.toNat).map (fun (i : Nat) => (i : Int)) ∧
    (∀ e ∈ SPMV_main_dump n shardNum p_ans,
      e.2.1 = (SPMV_Hash_F.new n shardNum).hashFunc e.1 ∧ 0 ≤ e.2.1 ∧ e.2.1 < n ∧
      e.2.2 = p_ans[e.2.1.toNat]? ∧ e.2.2.isSome = true) ∧
    ((SPMV_main_dump n shardNum p_ans).map (fun e => e.2.1)).Perm
      ((List.range n.toNat).map (fun (i : Nat) => (i : Int))) := by
  have hdump : SPMV_main_dump n shardNum p_ans =
      (List.range n.toNat).map (fun (i : Nat) =>
        (((i : Int), (SPMV_Hash_F.new n shardNum).hashFunc i,
          if 0 ≤ (SPMV_Hash_F.new n shardNum).hashFunc i then
            p_ans[((SPMV_Hash_F.new n shardNum).hashFunc i).toNat]?
          else none) : Int × Int × Option ℚ)) := by
    unfold SPMV_main_dump
    rw [forLoop_collect]
  refine ⟨?_, ?_, ?_, ?_, ?_, ?_, ?_⟩
  · intro i hi0 hi
    obtain ⟨h0, h1⟩ := SPMV_hashFunc_range n shardNum i hn hS hi0 hi
    rw [(BP_hash_eq_SPMV_hash n shardNum i).1]
    exact ⟨h0, h1, h0, h1⟩
  · intro j hj0 hj
    obtain ⟨_, _, h⟩ := SPMV_hashBack_range n shardNum j hn hS hj0 hj
    rw [(BP_hash_eq_SPMV_hash n shardNum j).2, (BP_hash_eq_SPMV_hash n shardNum _).1]
    exact ⟨h, h⟩
  · intro i i2 hi0 _ hi20 _ heq
    have h1 := SPMV_hash_roundtrip n shardNum i hn hS hi0
    have h2 := SPMV_hash_roundtrip n shardNum i2 hn hS hi20
    rw [heq, h2] at h1
    exact h1.symm
  · intro j hj0 hj
    obtain ⟨h0, h1, h⟩ := SPMV_hashBack_range n shardNum j hn hS hj0 hj
    exact ⟨_, h0, h1, h⟩
  · rw [hdump, List.map_map]
    rfl
  · intro e he
    rw [hdump, List.mem_map] at he
    obtain ⟨i, hi, rfl⟩ := he
    rw [List.mem_range] at hi
    obtain ⟨h0, h1⟩ := SPMV_hashFunc_range n shardNum (i : Int) hn hS (by omega) (by omega)
    have hin : ((SPMV_Hash_F.new n shardNum).hashFunc (i : Int)).toNat < p_ans.length := by
      rw [hlen]; omega
    simp only [if_pos h0]
    refine ⟨trivial, h0, h1, trivial, ?_⟩
    rw [List.getElem?_eq_getElem hin]
    rfl
  · rw [hdump, List.map_map]
    exact SPMV_hashFunc_perm n shardNum hn hS

/-- C15 at `n = 5`, `shardNum = 2`: the dump reads the arena indices
`0, 2, 1, 3, 4`. -/
theorem C15_hash_is_permutation_witness :
    (0 : Int) ≤ 5 ∧ (1 : Int) ≤ 2 ∧ ([10, 11, 12, 13, 14] : List ℚ).length = (5 : Int).toNat ∧
    (SPMV_main_dump 5 2 [10, 11, 12, 13, 14]).map (fun e => e.2.1) = [0, 2, 1, 3, 4] ∧
    ((SPMV_main_dump 5 2 [10, 11, 12, 13, 14]).map (fun e => e.2.1)).Perm
      ((List.range (5 : Int).toNat).map (fun (i : Nat) => (i : Int))) :=
  ⟨by decide, by decide, by decide, by decide,
   (C15_hash_is_permutation 5 2 (by decide) (by decide) [10, 11, 12, 13, 14]
      (by decide)).2.2.2.2.2.2⟩
